import Mathlib

/-!
# ghostferry: the binlog writer (`binlog_writer.go`)

A shallow embedding of `BinlogWriter.Run` and `BinlogWriter.writeEvents`.

* The collaborators the writer talks to (the `DMLEvent` interface, `sql.DB`,
  the `StateTracker`, the `ErrorHandler`, the throttler) are declared outside
  `binlog_writer.go`.  They are parameters of the model, and every call the
  writer makes on one of them is recorded, in order, in a list of `Effect`s.
* The channel `binlogEventBuffer` is read by `Run` only.  What `Run` sees of it
  is a sequence of observations (`QueueObs`): an event is ready, a `nil` that
  was sent is ready, or nothing is buffered right now; the end of the sequence
  is the `close` done by `Stop`.
* Go's `error` is `Option String` (`none` is `nil`, `some msg` an error with
  message `msg`); byte slices and strings are `String`.
-/

set_option linter.unusedSectionVars false
set_option linter.unusedVariables false

namespace ghostferry

namespace schema

/-- The two fields of `schema.Table` that `writeEvents` fills in. -/
structure Table where
  Schema : String
  Name : String
  deriving DecidableEq, Repr

end schema

/-- The methods of the `DMLEvent` interface that the writer calls.  A value of
`E` is an actual event; the `nil` interface value is not one: on the channel
it is the observation `QueueObs.nilEvent`, and a receive yields `none`. -/
class DMLEvent (E : Type) (P : outParam Type) where
  Database : E → String
  Table : E → String
  AsSQLString : E → schema.Table → Except String String
  BinlogPosition : E → P

/-- Whether a call of `ErrorHandler.Fatal` hands control back to its caller. -/
inductive Control where
  | returns
  | terminates
  deriving DecidableEq, Repr

/-- The calls of the writer on its collaborators, plus the entry into
`writeEvents` (one entry per attempt, with the batch it was given). -/
inductive Effect (E P : Type) where
  | writeEvents (events : List E)
  | waitForThrottle
  | asSQLString (ev : E) (target : schema.Table)
  | exec (query : String)
  | updateLastWrittenBinlogPosition (pos : P)
  | fatal (origin : String) (err : String)
  deriving DecidableEq, Repr

/-- How a Go call ends: it returns an `error` (possibly `nil`), or it panics. -/
inductive CallResult where
  | returned (err : Option String)
  | panicked (msg : String)
  deriving DecidableEq, Repr

/-- The fields of `BinlogWriter` that `Run` and `writeEvents` read.

* `D` is the state of the target database; `Exec d query` is `DB.Exec(query)`
  in state `d`: the error it returns and the state it leaves.
* The two maps are given by their lookup (`v, exists := m[k]`).
* `BatchSize` is a natural number: for a negative `BatchSize` the
  `make(chan DMLEvent, b.BatchSize)` of `Initialize` panics, so no writer with
  a buffer exists for it.  `BatchSize = 0` passes `Initialize` (the channel is
  then unbuffered).
* `WriteRetries` is the budget handed to the retry executor.
* `Fatal origin err` tells whether `ErrorHandler.Fatal(origin, err)` hands
  control back to `Run`; `ErrorHandler` is an interface, nothing in
  `binlog_writer.go` fixes which it is.
* The throttler only blocks (`WaitForThrottle` returns nothing), the logger
  only logs; the `StateTracker` is seen through the positions it is given. -/
structure BinlogWriter (D : Type) where
  Exec : D → String → Option String × D
  DatabaseRewrites : String → Option String
  TableRewrites : String → Option String
  BatchSize : Nat
  WriteRetries : Nat
  Fatal : String → String → Control

/-- One observation of `binlogEventBuffer` by `Run`: an event is ready to be
received; or a `nil` is ready to be received, one that `BufferBinlogEvents`
was given as an element of `events` and sent like any other (line 80); or
nothing is buffered at this moment (a blocking receive waits, a `select` takes
its `default`).  The channel is given as the list of these observations in the
order `Run` makes them; when the list is used up the channel is closed and
drained, and every receive yields `nil`. -/
inductive QueueObs (E : Type) where
  | event (e : E)
  | nilEvent
  | empty
  deriving DecidableEq, Repr

/-- The result of one call (or of a retried call): how it ended, the effects
it had, in order, and the database state it left. -/
structure Outcome (D E P : Type) where
  result : CallResult
  trace : List (Effect E P)
  db : D

/-- How `Run` ends: the loop is left at the closed channel, or `Fatal` did not
return, or a panic unwound it. -/
inductive Status where
  | finished
  | fatalStop
  | panicked (msg : String)
  deriving DecidableEq, Repr

/-- What a run of `Run` did: how it ended, the calls it made, in order, the
database state it left, and its cycles in order, each with the batch it handed
to the write step (lines 63-65) and the database state in which that write
step started. -/
structure RunResult (D E P : Type) where
  status : Status
  trace : List (Effect E P)
  db : D
  cycles : List (List E × D)

section Model

variable {D E P : Type} [DMLEvent E P]

/-- Lines 92-100 and the argument of line 102: the target identity of an event,
each name looked up in its own map, the source name kept when absent. -/
def targetTable (b : BinlogWriter D) (ev : E) : schema.Table :=
  let eventDatabaseName :=
    match b.DatabaseRewrites (DMLEvent.Database ev) with
    | some targetDatabaseName => targetDatabaseName
    | none => DMLEvent.Database ev
  let eventTableName :=
    match b.TableRewrites (DMLEvent.Table ev) with
    | some targetTableName => targetTableName
    | none => DMLEvent.Table ev
  { Schema := eventDatabaseName, Name := eventTableName }

/-- The loop of lines 91-109 of `writeEvents`, started with `queryBuffer`: the
buffer after the loop, or the error the loop returns with, together with the
calls of `AsSQLString` made. -/
def renderEvents (b : BinlogWriter D) :
    List E → String → Except String String × List (Effect E P)
  | [], queryBuffer => (.ok queryBuffer, [])
  | ev :: rest, queryBuffer =>
    match DMLEvent.AsSQLString ev (targetTable b ev) with
    | .error err =>
      (.error ("generating sql query: " ++ err), [.asSQLString ev (targetTable b ev)])
    | .ok sql =>
      ((renderEvents b rest ((queryBuffer ++ sql) ++ ";\n")).1,
        .asSQLString ev (targetTable b ev) :: (renderEvents b rest ((queryBuffer ++ sql) ++ ";\n")).2)

/-- One call of `BinlogWriter.writeEvents` (lines 86-122) in database state `d`. -/
def writeEvents (b : BinlogWriter D) (events : List E) (d : D) : Outcome D E P :=
  match renderEvents b events "BEGIN;\n" with
  | (.error msg, calls) =>
    { result := .returned (some msg)
      trace := .writeEvents events :: .waitForThrottle :: calls
      db := d }
  | (.ok queryBuffer, calls) =>
    let query := queryBuffer ++ "COMMIT"
    match b.Exec d query with
    | (some err, d1) =>
      { result := .returned
          (some ("exec query (" ++ toString query.utf8ByteSize ++ " bytes): " ++ err))
        trace := .writeEvents events :: .waitForThrottle :: (calls ++ [.exec query])
        db := d1 }
    | (none, d1) =>
      match events.getLast? with
      | none =>
        { result := .panicked "index out of range [-1]"
          trace := .writeEvents events :: .waitForThrottle :: (calls ++ [.exec query])
          db := d1 }
      | some last =>
        { result := .returned none
          trace := .writeEvents events :: .waitForThrottle ::
            (calls ++ [.exec query,
              .updateLastWrittenBinlogPosition (DMLEvent.BinlogPosition last)])
          db := d1 }

/-- The attempts of the retry executor: `f` is attempted; a failed attempt is
followed by another one while `more` further attempts are allowed. -/
def retryLoop (f : D → Outcome D E P) : Nat → D → Outcome D E P
  | more, d =>
    match f d with
    | ⟨.returned (some err), calls, d1⟩ =>
      match more with
      | 0 => ⟨.returned (some err), calls, d1⟩
      | n + 1 =>
        ⟨(retryLoop f n d1).result, calls ++ (retryLoop f n d1).trace, (retryLoop f n d1).db⟩
    | o => o

/-- Modelled from the spec: `WithRetries` is declared outside
`binlog_writer.go`.  The retry executor "wraps an operation with bounded retry
attempts" (§2); "a transient failure in step 4 causes a full retry of steps
1-5 ... up to a configured retry budget; exhaustion is fatal" (§4.3); the
budget is the "maximum attempts for a single write step before declaring fatal
failure" (§6); the executor returns "a result that is either success or a
terminal failure after exhaustion" (§9).  The operation is attempted; after a
failed attempt it is attempted again as long as fewer than `maxRetries`
attempts have been made; the first success ends it with `nil`, exhaustion ends
it with the error of the last attempt.  The sleep between attempts (0 here),
the logger and the verb have no part in the result. -/
def WithRetries (maxRetries : Nat) (f : D → Outcome D E P) (d : D) : Outcome D E P :=
  retryLoop f (maxRetries - 1) d

/-- The blocking receive of line 41: it waits while nothing is buffered, and
yields the next event, or `nil` (`none`): the `nil` of the channel closed and
drained, or a `nil` that was sent. -/
def recvBlocking : List (QueueObs E) → Option E × List (QueueObs E)
  | [] => (none, [])
  | .empty :: rest => recvBlocking rest
  | .nilEvent :: rest => (none, rest)
  | .event e :: rest => (some e, rest)

/-- The inner loop of lines 48-61: while the batch is short of `BatchSize`, a
non-blocking receive; an event is appended, an empty buffer (`default`) or a
received `nil` (the closed channel, or a `nil` that was sent) ends the loop. -/
def fillBatch (BatchSize : Nat) : List E → List (QueueObs E) → List E × List (QueueObs E)
  | batch, sched =>
    if batch.length < BatchSize then
      match sched with
      | [] => (batch, [])
      | .empty :: rest => (batch, rest)
      | .nilEvent :: rest => (batch, rest)
      | .event event :: rest => fillBatch BatchSize (batch ++ [event]) rest
    else (batch, sched)

theorem recvBlocking_length (sched : List (QueueObs E)) (e : E) (rest : List (QueueObs E))
    (h : recvBlocking sched = (some e, rest)) : rest.length < sched.length := by
  induction sched with
  | nil => simp [recvBlocking] at h
  | cons o tl ih =>
    cases o with
    | empty =>
      simp only [recvBlocking] at h
      have := ih h
      simp only [List.length_cons]
      omega
    | nilEvent => simp [recvBlocking] at h
    | event x =>
      simp only [recvBlocking, Prod.mk.injEq] at h
      rw [← h.2]
      simp

theorem fillBatch_length_le (B : Nat) (batch : List E) (sched : List (QueueObs E)) :
    (fillBatch B batch sched).2.length ≤ sched.length := by
  induction sched generalizing batch with
  | nil =>
    unfold fillBatch
    split <;> simp
  | cons o tl ih =>
    unfold fillBatch
    split
    · cases o with
      | empty => simp
      | nilEvent => simp
      | event x =>
        have := ih (batch ++ [x])
        simp only [List.length_cons]
        omega
    · simp

/-- The outer loop of `Run` (lines 40-71), over what the channel delivers.
`batch` is empty at the head of every cycle (line 39 before the first, line 70
at the end of each).  A received `nil` ends the loop (lines 42-45).  After a
failed write step `Fatal` is called (line 67); when it hands control back,
`Run` goes on with line 70 and the next cycle.  Every cycle is logged with its
batch and the database state in which its write step starts. -/
def runLoop (b : BinlogWriter D) (sched : List (QueueObs E)) (d : D) : RunResult D E P :=
  match h : recvBlocking sched with
  | (none, _) => { status := .finished, trace := [], db := d, cycles := [] }
  | (some firstEvent, rest) =>
    let batch : List E := []
    let filled := fillBatch b.BatchSize (batch ++ [firstEvent]) rest
    let o := WithRetries b.WriteRetries (writeEvents b filled.1) d
    match o.result with
    | .panicked msg =>
      { status := .panicked msg, trace := o.trace, db := o.db, cycles := [(filled.1, d)] }
    | .returned none =>
      { status := (runLoop b filled.2 o.db).status
        trace := o.trace ++ (runLoop b filled.2 o.db).trace
        db := (runLoop b filled.2 o.db).db
        cycles := (filled.1, d) :: (runLoop b filled.2 o.db).cycles }
    | .returned (some err) =>
      match b.Fatal "binlog_writer" err with
      | .terminates =>
        { status := .fatalStop
          trace := o.trace ++ [.fatal "binlog_writer" err]
          db := o.db
          cycles := [(filled.1, d)] }
      | .returns =>
        { status := (runLoop b filled.2 o.db).status
          trace := o.trace ++ .fatal "binlog_writer" err :: (runLoop b filled.2 o.db).trace
          db := (runLoop b filled.2 o.db).db
          cycles := (filled.1, d) :: (runLoop b filled.2 o.db).cycles }
termination_by sched.length
decreasing_by
  all_goals
    have h1 := recvBlocking_length sched firstEvent rest h
    have h2 := fillBatch_length_le b.BatchSize ([] ++ [firstEvent]) rest
    simp only [List.nil_append] at h2 ⊢
    omega

/-- `BinlogWriter.Run` (lines 38-72) on a channel that delivers `sched` and is
then closed, from database state `d`. -/
def Run (b : BinlogWriter D) (sched : List (QueueObs E)) (d : D) : RunResult D E P :=
  runLoop b sched d


/-! ### Reading a trace -/

/-- The batch of an entry into `writeEvents`. -/
def Effect.batch? : Effect E P → Option (List E)
  | .writeEvents events => some events
  | _ => none

/-- The query of a call of `DB.Exec`. -/
def Effect.query? : Effect E P → Option String
  | .exec query => some query
  | _ => none

/-- The position of a call of `StateTracker.UpdateLastWrittenBinlogPosition`. -/
def Effect.position? : Effect E P → Option P
  | .updateLastWrittenBinlogPosition pos => some pos
  | _ => none

/-- The event and the target identity of a call of `AsSQLString`. -/
def Effect.rendering? : Effect E P → Option (E × schema.Table)
  | .asSQLString ev target => some (ev, target)
  | _ => none

/-- The error of a call of `ErrorHandler.Fatal`. -/
def Effect.fatal? : Effect E P → Option (String × String)
  | .fatal origin err => some (origin, err)
  | _ => none

/-- The batches passed to `writeEvents`, in order. -/
def submitted (tr : List (Effect E P)) : List (List E) := tr.filterMap Effect.batch?

/-- The queries passed to `DB.Exec`, in order. -/
def execs (tr : List (Effect E P)) : List String := tr.filterMap Effect.query?

/-- The positions passed to `UpdateLastWrittenBinlogPosition`, in order. -/
def positions (tr : List (Effect E P)) : List P := tr.filterMap Effect.position?

/-- The calls of `AsSQLString`, in order. -/
def renderings (tr : List (Effect E P)) : List (E × schema.Table) :=
  tr.filterMap Effect.rendering?

/-- The calls of `ErrorHandler.Fatal`, in order. -/
def fatals (tr : List (Effect E P)) : List (String × String) := tr.filterMap Effect.fatal?

/-- The events that were enqueued, in order: those the channel holds, whether
`Run` gets to receive them or not. -/
def queued : List (QueueObs E) → List E
  | [] => []
  | .event e :: rest => e :: queued rest
  | .nilEvent :: rest => queued rest
  | .empty :: rest => queued rest

/-- The batches of the cycles of a run, in order: each is handed once to the
write step of its cycle (lines 63-65). -/
def RunResult.batches {D E P : Type} (r : RunResult D E P) : List (List E) :=
  r.cycles.map Prod.fst

/-- The sizes of the consecutive chunks of `n` items, `B` to a chunk: as many
chunks as `n / B` rounded up, all of size `B` but the last, which takes the
remaining items. -/
def chunkSizes (B n : Nat) : List Nat :=
  if n = 0 then []
  else List.replicate ((n + B - 1) / B - 1) B ++ [n - B * ((n + B - 1) / B - 1)]


end Model

/-! ## Example events and writers -/

/-- A row event: its source names, its position in the binlog, and the SQL
verb it renders with (`none`: the event cannot be rendered). -/
structure RowEvent where
  database : String
  table : String
  pos : Nat
  verb : Option String
  deriving DecidableEq, Repr

instance : DMLEvent RowEvent Nat where
  Database ev := ev.database
  Table ev := ev.table
  AsSQLString ev target :=
    match ev.verb with
    | some verb => .ok (verb ++ " " ++ target.Schema ++ "." ++ target.Name)
    | none => .error "unsupported event"
  BinlogPosition ev := ev.pos

/-- An insert into `src.orders` at binlog position `pos`. -/
def order (pos : Nat) : RowEvent :=
  { database := "src", table := "orders", pos := pos, verb := some "INSERT INTO" }

/-- A writer whose target executes every query; database `src` is rewritten
to `dst`, no table is rewritten. -/
def steadyWriter (batchSize retries : Nat) : BinlogWriter Unit :=
  { Exec := fun d _ => (none, d)
    DatabaseRewrites := fun name => if name = "src" then some "dst" else none
    TableRewrites := fun _ => none
    BatchSize := batchSize
    WriteRetries := retries
    Fatal := fun _ _ => .terminates }

/-- A writer whose target fails the first `failures` calls of `Exec` and
executes the later ones; the database state counts the calls. -/
def flakyWriter (failures batchSize retries : Nat) (fatal : Control) : BinlogWriter Nat :=
  { Exec := fun calls _ =>
      if calls < failures then (some "connection lost", calls + 1) else (none, calls + 1)
    DatabaseRewrites := fun name => if name = "src" then some "dst" else none
    TableRewrites := fun _ => none
    BatchSize := batchSize
    WriteRetries := retries
    Fatal := fun _ _ => fatal }

/-- A writer whose target executes the first `successes` calls of `Exec` and
fails the later ones; the database state counts the calls. -/
def wornWriter (successes batchSize retries : Nat) (fatal : Control) : BinlogWriter Nat :=
  { Exec := fun calls _ =>
      if calls < successes then (none, calls + 1) else (some "connection lost", calls + 1)
    DatabaseRewrites := fun name => if name = "src" then some "dst" else none
    TableRewrites := fun _ => none
    BatchSize := batchSize
    WriteRetries := retries
    Fatal := fun _ _ => fatal }

/-! ## Lemmas -/

section Lemmas

variable {D E P : Type} [DMLEvent E P]

/-! ### The rendering loop -/

theorem join_statements (q sql : String) (rest : List String) :
    (q ++ sql ++ ";\n") ++ String.join rest = q ++ String.join ((sql ++ ";\n") :: rest) := by
  apply String.ext
  simp [String.data_join]

theorem renderEvents_ok (b : BinlogWriter D) (events : List E) (sqls : List String)
    (q : String)
    (hsql : events.map (fun ev => DMLEvent.AsSQLString ev (targetTable b ev))
      = sqls.map Except.ok) :
    renderEvents (P := P) b events q
      = (.ok (q ++ String.join (sqls.map (fun sql => sql ++ ";\n"))),
          events.map (fun ev => Effect.asSQLString ev (targetTable b ev))) := by
  induction events generalizing sqls q with
  | nil =>
    cases sqls with
    | nil => simp [renderEvents, String.join]
    | cons s tl => simp at hsql
  | cons ev rest ih =>
    cases sqls with
    | nil => simp at hsql
    | cons s tl =>
      simp only [List.map_cons, List.cons.injEq] at hsql
      have h := ih tl ((q ++ s) ++ ";\n") hsql.2
      simp only [renderEvents, hsql.1, h, List.map_cons]
      rw [join_statements]

theorem renderEvents_error (b : BinlogWriter D) (pre : List E) (ev : E) (post : List E)
    (err : String) (q : String)
    (hpre : ∀ x ∈ pre, ∃ sql, DMLEvent.AsSQLString x (targetTable b x) = Except.ok sql)
    (hev : DMLEvent.AsSQLString ev (targetTable b ev) = Except.error err) :
    renderEvents (P := P) b (pre ++ ev :: post) q
      = (.error ("generating sql query: " ++ err),
          (pre ++ [ev]).map (fun x => Effect.asSQLString x (targetTable b x))) := by
  induction pre generalizing q with
  | nil => simp [renderEvents, hev]
  | cons x tl ih =>
    obtain ⟨sql, hx⟩ := hpre x (by simp)
    have h := ih ((q ++ sql) ++ ";\n") (fun y hy => hpre y (by simp [hy]))
    rw [List.cons_append, renderEvents]
    simp only [hx, h, List.cons_append, List.map_cons]

/-- The loop calls nothing but `AsSQLString`, on an initial segment of the
batch, each event with its own target identity. -/
theorem renderEvents_calls (b : BinlogWriter D) (events : List E) (q : String) :
    ∃ n, (renderEvents (P := P) b events q).2
      = (events.take n).map (fun ev => Effect.asSQLString ev (targetTable b ev)) := by
  induction events generalizing q with
  | nil => exact ⟨0, by simp [renderEvents]⟩
  | cons ev rest ih =>
    cases hev : DMLEvent.AsSQLString ev (targetTable b ev) with
    | error err => exact ⟨1, by simp [renderEvents, hev]⟩
    | ok sql =>
      obtain ⟨n, hn⟩ := ih ((q ++ sql) ++ ";\n")
      exact ⟨n + 1, by simp [renderEvents, hev, hn]⟩


/-! ### Projections of the calls of the rendering loop -/

theorem positions_asSQLString (b : BinlogWriter D) (l : List E) :
    positions (l.map (fun ev => (Effect.asSQLString ev (targetTable b ev) : Effect E P))) = [] := by
  induction l with
  | nil => rfl
  | cons x tl ih => simp [positions, Effect.position?]

theorem execs_asSQLString (b : BinlogWriter D) (l : List E) :
    execs (l.map (fun ev => (Effect.asSQLString ev (targetTable b ev) : Effect E P))) = [] := by
  induction l with
  | nil => rfl
  | cons x tl ih => simp [execs, Effect.query?]

theorem submitted_asSQLString (b : BinlogWriter D) (l : List E) :
    submitted (l.map (fun ev => (Effect.asSQLString ev (targetTable b ev) : Effect E P))) = [] := by
  induction l with
  | nil => rfl
  | cons x tl ih => simp [submitted, Effect.batch?]

theorem fatals_asSQLString (b : BinlogWriter D) (l : List E) :
    fatals (l.map (fun ev => (Effect.asSQLString ev (targetTable b ev) : Effect E P))) = [] := by
  induction l with
  | nil => rfl
  | cons x tl ih => simp [fatals, Effect.fatal?]

theorem renderings_asSQLString (b : BinlogWriter D) (l : List E) :
    renderings (l.map (fun ev => (Effect.asSQLString ev (targetTable b ev) : Effect E P)))
      = l.map (fun ev => (ev, targetTable b ev)) := by
  induction l with
  | nil => rfl
  | cons x tl ih => simpa [renderings, Effect.rendering?] using ih

/-! ### One call of `writeEvents` -/

theorem writeEvents_render_error (b : BinlogWriter D) (events : List E) (d : D)
    (msg : String) (calls : List (Effect E P))
    (h : renderEvents b events "BEGIN;\n" = (.error msg, calls)) :
    writeEvents b events d
      = { result := .returned (some msg)
          trace := .writeEvents events :: .waitForThrottle :: calls
          db := d } := by
  simp only [writeEvents, h]

theorem writeEvents_exec_error (b : BinlogWriter D) (events : List E) (d d1 : D)
    (queryBuffer err : String) (calls : List (Effect E P))
    (h : renderEvents b events "BEGIN;\n" = (.ok queryBuffer, calls))
    (hx : b.Exec d (queryBuffer ++ "COMMIT") = (some err, d1)) :
    writeEvents b events d
      = { result := .returned (some ("exec query ("
            ++ toString (queryBuffer ++ "COMMIT").utf8ByteSize ++ " bytes): " ++ err))
          trace := .writeEvents events :: .waitForThrottle ::
            (calls ++ [.exec (queryBuffer ++ "COMMIT")])
          db := d1 } := by
  simp only [writeEvents, h, hx]

theorem writeEvents_committed (b : BinlogWriter D) (events : List E) (d d1 : D)
    (queryBuffer : String) (calls : List (Effect E P)) (last : E)
    (h : renderEvents b events "BEGIN;\n" = (.ok queryBuffer, calls))
    (hx : b.Exec d (queryBuffer ++ "COMMIT") = (none, d1))
    (hl : events.getLast? = some last) :
    writeEvents b events d
      = { result := .returned none
          trace := .writeEvents events :: .waitForThrottle ::
            (calls ++ [.exec (queryBuffer ++ "COMMIT"),
              .updateLastWrittenBinlogPosition (DMLEvent.BinlogPosition last)])
          db := d1 } := by
  simp only [writeEvents, h, hx, hl]

theorem writeEvents_index_panic (b : BinlogWriter D) (events : List E) (d d1 : D)
    (queryBuffer : String) (calls : List (Effect E P))
    (h : renderEvents b events "BEGIN;\n" = (.ok queryBuffer, calls))
    (hx : b.Exec d (queryBuffer ++ "COMMIT") = (none, d1))
    (hl : events.getLast? = none) :
    writeEvents b events d
      = { result := .panicked "index out of range [-1]"
          trace := .writeEvents events :: .waitForThrottle ::
            (calls ++ [.exec (queryBuffer ++ "COMMIT")])
          db := d1 } := by
  simp only [writeEvents, h, hx, hl]

/-- The four ways a call of `writeEvents` can go, with the calls it makes. -/
theorem writeEvents_cases (b : BinlogWriter D) (events : List E) (d : D) :
    ∃ n, ∃ calls : List (Effect E P),
      calls = (events.take n).map (fun ev => Effect.asSQLString ev (targetTable b ev)) ∧
      ((∃ msg, writeEvents b events d
          = ⟨.returned (some msg), .writeEvents events :: .waitForThrottle :: calls, d⟩) ∨
       (∃ msg query d1, writeEvents b events d
          = ⟨.returned (some msg),
              .writeEvents events :: .waitForThrottle :: (calls ++ [.exec query]), d1⟩) ∨
       (∃ query d1, events = [] ∧ writeEvents b events d
          = ⟨.panicked "index out of range [-1]",
              .writeEvents events :: .waitForThrottle :: (calls ++ [.exec query]), d1⟩) ∨
       (∃ query d1 last, events.getLast? = some last ∧ writeEvents b events d
          = ⟨.returned none,
              .writeEvents events :: .waitForThrottle :: (calls ++ [.exec query,
                .updateLastWrittenBinlogPosition (DMLEvent.BinlogPosition last)]), d1⟩)) := by
  obtain ⟨n, hn⟩ := renderEvents_calls (P := P) b events "BEGIN;\n"
  rcases hr : renderEvents (P := P) b events "BEGIN;\n" with ⟨r, calls⟩
  rw [hr] at hn
  simp only at hn
  refine ⟨n, calls, hn, ?_⟩
  cases r with
  | error msg => exact Or.inl ⟨msg, writeEvents_render_error b events d msg calls hr⟩
  | ok queryBuffer =>
    rcases hx : b.Exec d (queryBuffer ++ "COMMIT") with ⟨e, d1⟩
    cases e with
    | some err =>
      exact Or.inr (Or.inl ⟨_, _, d1, writeEvents_exec_error b events d d1 queryBuffer err calls hr hx⟩)
    | none =>
      cases hl : events.getLast? with
      | none =>
        have he : events = [] := List.getLast?_eq_none_iff.mp hl
        exact Or.inr (Or.inr (Or.inl ⟨_, d1, he,
          writeEvents_index_panic b events d d1 queryBuffer calls hr hx hl⟩))
      | some last =>
        exact Or.inr (Or.inr (Or.inr ⟨_, d1, last, rfl,
          writeEvents_committed b events d d1 queryBuffer calls last hr hx hl⟩))

/-- A call of `writeEvents` is one entry into `writeEvents`, with its batch. -/
theorem submitted_writeEvents (b : BinlogWriter D) (events : List E) (d : D) :
    submitted (writeEvents b events d).trace = [events] := by
  obtain ⟨n, calls, hc, h⟩ := writeEvents_cases b events d
  have hs := submitted_asSQLString (P := P) b (events.take n)
  rw [← hc] at hs
  rcases h with ⟨_, h⟩ | ⟨_, _, _, h⟩ | ⟨_, _, _, h⟩ | ⟨_, _, _, _, h⟩ <;>
    · rw [h]
      simp only [submitted] at hs
      simp [submitted, Effect.batch?, hs]

/-- A call of `writeEvents` never calls `ErrorHandler.Fatal`. -/
theorem fatals_writeEvents (b : BinlogWriter D) (events : List E) (d : D) :
    fatals (writeEvents b events d).trace = [] := by
  obtain ⟨n, calls, hc, h⟩ := writeEvents_cases b events d
  have hs := fatals_asSQLString (P := P) b (events.take n)
  rw [← hc] at hs
  rcases h with ⟨_, h⟩ | ⟨_, _, _, h⟩ | ⟨_, _, _, h⟩ | ⟨_, _, _, _, h⟩ <;>
    · rw [h]
      simp only [fatals] at hs
      simp [fatals, Effect.fatal?, hs]

/-- The position updates of one call of `writeEvents` on a non-empty batch:
none when it returns an error, the position of the last event when it returns
`nil`; and it returns. -/
theorem writeEvents_positions (b : BinlogWriter D) (events : List E) (d : D)
    (hne : events ≠ []) :
    (∃ err, (writeEvents b events d).result = .returned err) ∧
    ((writeEvents b events d).result = .returned none →
      positions (writeEvents b events d).trace
        = [DMLEvent.BinlogPosition (events.getLast hne)]) ∧
    ((writeEvents b events d).result ≠ .returned none →
      positions (writeEvents b events d).trace = []) := by
  obtain ⟨n, calls, hc, h⟩ := writeEvents_cases b events d
  have hs := positions_asSQLString (P := P) b (events.take n)
  rw [← hc] at hs
  simp only [positions] at hs
  rcases h with ⟨_, h⟩ | ⟨_, _, _, h⟩ | ⟨_, _, he, h⟩ | ⟨_, _, last, hl, h⟩
  · rw [h]
    exact ⟨⟨_, rfl⟩, by simp, fun _ => by simp [positions, Effect.position?, hs]⟩
  · rw [h]
    exact ⟨⟨_, rfl⟩, by simp, fun _ => by simp [positions, Effect.position?, hs]⟩
  · exact absurd he hne
  · rw [h]
    have hlast : events.getLast hne = last := by
      have := List.getLast?_eq_getLast events hne
      rw [hl] at this
      exact (Option.some.inj this).symm
    exact ⟨⟨_, rfl⟩, fun _ => by simp [positions, Effect.position?, hs, hlast],
      fun hc => absurd rfl hc⟩


/-! ### The retry executor -/

theorem retryLoop_of_not_error (f : D → Outcome D E P) (n : Nat) (d : D)
    (h : ∀ err, (f d).result ≠ .returned (some err)) : retryLoop f n d = f d := by
  rcases hfd : f d with ⟨r, calls, d1⟩
  rw [hfd] at h
  cases r with
  | panicked msg => rw [retryLoop, hfd]
  | returned e =>
    cases e with
    | none => rw [retryLoop, hfd]
    | some err => exact absurd rfl (h err)

theorem retryLoop_error_zero (f : D → Outcome D E P) (d : D) (err : String)
    (h : (f d).result = .returned (some err)) : retryLoop f 0 d = f d := by
  rcases hfd : f d with ⟨r, calls, d1⟩
  rw [hfd] at h
  simp only at h
  subst h
  rw [retryLoop, hfd]

theorem retryLoop_error_succ (f : D → Outcome D E P) (n : Nat) (d : D) (err : String)
    (h : (f d).result = .returned (some err)) :
    retryLoop f (n + 1) d
      = ⟨(retryLoop f n (f d).db).result, (f d).trace ++ (retryLoop f n (f d).db).trace,
          (retryLoop f n (f d).db).db⟩ := by
  rcases hfd : f d with ⟨r, calls, d1⟩
  rw [hfd] at h
  simp only at h
  subst h
  rw [retryLoop, hfd]

/-- The three ways the attempts can start. -/
theorem retryLoop_cases (f : D → Outcome D E P) (n : Nat) (d : D) :
    retryLoop f n d = f d ∨
    ∃ m, n = m + 1 ∧ (∃ err, (f d).result = .returned (some err)) ∧
      retryLoop f n d
        = ⟨(retryLoop f m (f d).db).result, (f d).trace ++ (retryLoop f m (f d).db).trace,
            (retryLoop f m (f d).db).db⟩ := by
  by_cases h : ∃ err, (f d).result = .returned (some err)
  · obtain ⟨err, herr⟩ := h
    cases n with
    | zero => exact Or.inl (retryLoop_error_zero f d err herr)
    | succ m => exact Or.inr ⟨m, rfl, ⟨err, herr⟩, retryLoop_error_succ f m d err herr⟩
  · exact Or.inl (retryLoop_of_not_error f n d (fun err herr => h ⟨err, herr⟩))

/-- What holds of every effect of every attempt holds of every effect of the
retried operation. -/
theorem retryLoop_trace_forall (f : D → Outcome D E P) (Q : Effect E P → Prop)
    (hf : ∀ d, ∀ x ∈ (f d).trace, Q x) (n : Nat) (d : D) :
    ∀ x ∈ (retryLoop f n d).trace, Q x := by
  induction n generalizing d with
  | zero =>
    rcases retryLoop_cases f 0 d with h | ⟨m, hm, _, _⟩
    · rw [h]; exact hf d
    · omega
  | succ k ih =>
    rcases retryLoop_cases f (k + 1) d with h | ⟨m, hm, _, h⟩
    · rw [h]; exact hf d
    · have hk : m = k := by omega
      subst hk
      rw [h]
      intro x hx
      simp only [List.mem_append] at hx
      rcases hx with hx | hx
      · exact hf d x hx
      · exact ih (f d).db x hx

/-- The retried operation ends the way one of its attempts ends. -/
theorem retryLoop_result (f : D → Outcome D E P) (n : Nat) (d : D) :
    ∃ d1, (retryLoop f n d).result = (f d1).result := by
  induction n generalizing d with
  | zero =>
    rcases retryLoop_cases f 0 d with h | ⟨m, hm, _, _⟩
    · exact ⟨d, by rw [h]⟩
    · omega
  | succ k ih =>
    rcases retryLoop_cases f (k + 1) d with h | ⟨m, hm, _, h⟩
    · exact ⟨d, by rw [h]⟩
    · have hk : m = k := by omega
      subst hk
      obtain ⟨d1, hd1⟩ := ih (f d).db
      exact ⟨d1, by rw [h]; exact hd1⟩

/-- When a successful attempt updates the position once, to `p`, and no other
attempt updates it, the retried operation updates it once, to `p`, when it
ends with `nil`, and not at all otherwise. -/
theorem retryLoop_positions (f : D → Outcome D E P) (p : P)
    (hok : ∀ d, (f d).result = .returned none → positions (f d).trace = [p])
    (herr : ∀ d, (f d).result ≠ .returned none → positions (f d).trace = [])
    (n : Nat) (d : D) :
    ((retryLoop f n d).result = .returned none → positions (retryLoop f n d).trace = [p]) ∧
    ((retryLoop f n d).result ≠ .returned none → positions (retryLoop f n d).trace = []) := by
  induction n generalizing d with
  | zero =>
    rcases retryLoop_cases f 0 d with h | ⟨m, hm, _, _⟩
    · rw [h]; exact ⟨hok d, herr d⟩
    · omega
  | succ k ih =>
    rcases retryLoop_cases f (k + 1) d with h | ⟨m, hm, ⟨err, he⟩, h⟩
    · rw [h]; exact ⟨hok d, herr d⟩
    · have hk : m = k := by omega
      subst hk
      have h0 : positions (f d).trace = [] := herr d (by rw [he]; simp)
      rw [h]
      simp only [positions, List.filterMap_append] at h0 ⊢
      rw [h0]
      simpa [positions] using ih (f d).db


/-! ### Receiving from the channel -/

theorem recvBlocking_some (sched : List (QueueObs E)) (e : E) (rest : List (QueueObs E))
    (h : recvBlocking sched = (some e, rest)) : queued sched = e :: queued rest := by
  induction sched with
  | nil => simp [recvBlocking] at h
  | cons o tl ih =>
    cases o with
    | empty =>
      simp only [recvBlocking] at h
      simpa [queued] using ih h
    | nilEvent => simp [recvBlocking] at h
    | event x =>
      simp only [recvBlocking, Prod.mk.injEq, Option.some.injEq] at h
      rw [← h.1, ← h.2]
      rfl

/-- A blocking receive that yields `nil` on a channel on which no `nil` was
sent: the channel is closed and drained. -/
theorem recvBlocking_none (sched : List (QueueObs E)) (rest : List (QueueObs E))
    (hnil : QueueObs.nilEvent ∉ sched)
    (h : recvBlocking sched = (none, rest)) : queued sched = [] := by
  induction sched with
  | nil => rfl
  | cons o tl ih =>
    cases o with
    | empty =>
      simp only [recvBlocking] at h
      simpa [queued] using ih (fun hm => hnil (List.mem_cons_of_mem _ hm)) h
    | nilEvent => exact absurd (List.mem_cons_self _ _) hnil
    | event x => simp [recvBlocking] at h

/-- What a blocking receive leaves on the channel was on it before. -/
theorem recvBlocking_rest_mem (sched : List (QueueObs E)) (r : Option E)
    (rest : List (QueueObs E)) (h : recvBlocking sched = (r, rest)) :
    ∀ x ∈ rest, x ∈ sched := by
  induction sched with
  | nil =>
    simp only [recvBlocking, Prod.mk.injEq] at h
    rw [← h.2]
    simp
  | cons o tl ih =>
    cases o with
    | empty =>
      simp only [recvBlocking] at h
      exact fun x hx => List.mem_cons_of_mem _ (ih h x hx)
    | nilEvent =>
      simp only [recvBlocking, Prod.mk.injEq] at h
      rw [← h.2]
      exact fun x hx => List.mem_cons_of_mem _ hx
    | event e =>
      simp only [recvBlocking, Prod.mk.injEq] at h
      rw [← h.2]
      exact fun x hx => List.mem_cons_of_mem _ hx

/-- What the inner loop leaves on the channel was on it before. -/
theorem fillBatch_rest_mem (B : Nat) (batch : List E) (sched : List (QueueObs E)) :
    ∀ x ∈ (fillBatch B batch sched).2, x ∈ sched := by
  induction sched generalizing batch with
  | nil =>
    unfold fillBatch
    split <;> simp
  | cons o tl ih =>
    unfold fillBatch
    split
    · cases o with
      | empty => exact fun x hx => List.mem_cons_of_mem _ hx
      | nilEvent => exact fun x hx => List.mem_cons_of_mem _ hx
      | event e => exact fun x hx => List.mem_cons_of_mem _ (ih (batch ++ [e]) x hx)
    · exact fun x hx => hx

/-- The inner loop appends events to the batch, takes them off the channel in
order, and does not let the batch grow beyond `BatchSize`. -/
theorem fillBatch_spec (B : Nat) (batch : List E) (sched : List (QueueObs E)) :
    ∃ more, (fillBatch B batch sched).1 = batch ++ more ∧
      queued sched = more ++ queued (fillBatch B batch sched).2 ∧
      (batch ++ more).length ≤ max B batch.length := by
  induction sched generalizing batch with
  | nil =>
    refine ⟨[], ?_, ?_, ?_⟩
    · unfold fillBatch; split <;> simp
    · unfold fillBatch; split <;> simp
    · simp
  | cons o tl ih =>
    by_cases hlt : batch.length < B
    · cases o with
      | empty =>
        refine ⟨[], ?_, ?_, ?_⟩
        · rw [fillBatch]; simp [hlt]
        · rw [fillBatch]; simp [hlt, queued]
        · simp
      | nilEvent =>
        refine ⟨[], ?_, ?_, ?_⟩
        · rw [fillBatch]; simp [hlt]
        · rw [fillBatch]; simp [hlt, queued]
        · simp
      | event x =>
        obtain ⟨more, h1, h2, h3⟩ := ih (batch ++ [x])
        have hf : fillBatch B batch (QueueObs.event x :: tl) = fillBatch B (batch ++ [x]) tl := by
          rw [fillBatch]; simp [hlt]
        refine ⟨x :: more, ?_, ?_, ?_⟩
        · rw [hf, h1]; simp
        · rw [hf]; simp [queued, h2]
        · simp only [List.length_append, List.length_cons, List.length_nil] at h3 ⊢
          omega
    · refine ⟨[], ?_, ?_, ?_⟩
      · rw [fillBatch.eq_def]; simp [hlt]
      · rw [fillBatch.eq_def]; simp [hlt]
      · simp

/-- On a channel on which every event is ready, the inner loop fills the batch
up to `BatchSize`. -/
theorem fillBatch_events (B : Nat) (batch : List E) (l : List E) :
    fillBatch B batch (l.map QueueObs.event)
      = (batch ++ l.take (B - batch.length), (l.drop (B - batch.length)).map QueueObs.event) := by
  induction l generalizing batch with
  | nil => unfold fillBatch; split <;> simp
  | cons x tl ih =>
    by_cases hlt : batch.length < B
    · have hf : fillBatch B batch ((x :: tl).map QueueObs.event)
          = fillBatch B (batch ++ [x]) (tl.map QueueObs.event) := by
        rw [List.map_cons, fillBatch]; simp [hlt]
      rw [hf, ih (batch ++ [x])]
      have hs : B - batch.length = (B - (batch ++ [x]).length) + 1 := by
        simp only [List.length_append, List.length_cons, List.length_nil]
        omega
      rw [hs]
      simp
    · have h0 : B - batch.length = 0 := by omega
      rw [fillBatch.eq_def, h0]
      simp [hlt]

/-! ### One cycle of `Run` -/

theorem runLoop_closed (b : BinlogWriter D) (sched rest : List (QueueObs E)) (d : D)
    (h : recvBlocking sched = (none, rest)) :
    runLoop (P := P) b sched d
      = { status := .finished, trace := [], db := d, cycles := [] } := by
  rw [runLoop]
  split
  · rfl
  · rename_i heq
    rw [h] at heq
    cases heq

/-- The cycle of `Run` that starts by receiving `firstEvent`. -/
theorem runLoop_cycle (b : BinlogWriter D) (sched rest : List (QueueObs E)) (d : D)
    (firstEvent : E) (h : recvBlocking sched = (some firstEvent, rest)) :
    runLoop (P := P) b sched d =
      match (WithRetries b.WriteRetries
          (writeEvents b (fillBatch b.BatchSize [firstEvent] rest).1) d).result with
      | .panicked msg =>
        { status := .panicked msg
          trace := (WithRetries b.WriteRetries
            (writeEvents b (fillBatch b.BatchSize [firstEvent] rest).1) d).trace
          db := (WithRetries b.WriteRetries
            (writeEvents b (fillBatch b.BatchSize [firstEvent] rest).1) d).db
          cycles := [((fillBatch b.BatchSize [firstEvent] rest).1, d)] }
      | .returned none =>
        { status := (runLoop b (fillBatch b.BatchSize [firstEvent] rest).2
            (WithRetries b.WriteRetries
              (writeEvents b (fillBatch b.BatchSize [firstEvent] rest).1) d).db).status
          trace := (WithRetries b.WriteRetries
              (writeEvents b (fillBatch b.BatchSize [firstEvent] rest).1) d).trace
            ++ (runLoop b (fillBatch b.BatchSize [firstEvent] rest).2
              (WithRetries b.WriteRetries
                (writeEvents b (fillBatch b.BatchSize [firstEvent] rest).1) d).db).trace
          db := (runLoop b (fillBatch b.BatchSize [firstEvent] rest).2
            (WithRetries b.WriteRetries
              (writeEvents b (fillBatch b.BatchSize [firstEvent] rest).1) d).db).db
          cycles := ((fillBatch b.BatchSize [firstEvent] rest).1, d) ::
            (runLoop b (fillBatch b.BatchSize [firstEvent] rest).2
              (WithRetries b.WriteRetries
                (writeEvents b (fillBatch b.BatchSize [firstEvent] rest).1) d).db).cycles }
      | .returned (some err) =>
        match b.Fatal "binlog_writer" err with
        | .terminates =>
          { status := .fatalStop
            trace := (WithRetries b.WriteRetries
                (writeEvents b (fillBatch b.BatchSize [firstEvent] rest).1) d).trace
              ++ [.fatal "binlog_writer" err]
            db := (WithRetries b.WriteRetries
              (writeEvents b (fillBatch b.BatchSize [firstEvent] rest).1) d).db
            cycles := [((fillBatch b.BatchSize [firstEvent] rest).1, d)] }
        | .returns =>
          { status := (runLoop b (fillBatch b.BatchSize [firstEvent] rest).2
              (WithRetries b.WriteRetries
                (writeEvents b (fillBatch b.BatchSize [firstEvent] rest).1) d).db).status
            trace := (WithRetries b.WriteRetries
                (writeEvents b (fillBatch b.BatchSize [firstEvent] rest).1) d).trace
              ++ .fatal "binlog_writer" err ::
                (runLoop b (fillBatch b.BatchSize [firstEvent] rest).2
                  (WithRetries b.WriteRetries
                    (writeEvents b (fillBatch b.BatchSize [firstEvent] rest).1) d).db).trace
            db := (runLoop b (fillBatch b.BatchSize [firstEvent] rest).2
              (WithRetries b.WriteRetries
                (writeEvents b (fillBatch b.BatchSize [firstEvent] rest).1) d).db).db
            cycles := ((fillBatch b.BatchSize [firstEvent] rest).1, d) ::
              (runLoop b (fillBatch b.BatchSize [firstEvent] rest).2
                (WithRetries b.WriteRetries
                  (writeEvents b (fillBatch b.BatchSize [firstEvent] rest).1) d).db).cycles } := by
  rw [runLoop]
  split
  · rename_i heq
    rw [h] at heq
    cases heq
  · rename_i e r heq
    rw [h] at heq
    simp only [Prod.mk.injEq, Option.some.injEq] at heq
    obtain ⟨he, hr⟩ := heq
    subst he
    subst hr
    rfl


/-- The four ways a cycle of `Run` can go: a panic unwinds it, the write step
succeeds, or the write step fails and `Fatal` either keeps control or hands it
back. -/
theorem runLoop_cycle_cases (b : BinlogWriter D) (sched rest : List (QueueObs E)) (d : D)
    (firstEvent : E) (h : recvBlocking sched = (some firstEvent, rest))
    (o : Outcome D E P)
    (ho : o = WithRetries b.WriteRetries
      (writeEvents b (fillBatch b.BatchSize [firstEvent] rest).1) d)
    (next : RunResult D E P)
    (hn : next = runLoop b (fillBatch b.BatchSize [firstEvent] rest).2 o.db) :
    (∃ msg, o.result = .panicked msg ∧
      runLoop b sched d
        = ⟨.panicked msg, o.trace, o.db, [((fillBatch b.BatchSize [firstEvent] rest).1, d)]⟩) ∨
    (o.result = .returned none ∧
      runLoop b sched d
        = ⟨next.status, o.trace ++ next.trace, next.db,
            ((fillBatch b.BatchSize [firstEvent] rest).1, d) :: next.cycles⟩) ∨
    (∃ err, o.result = .returned (some err) ∧ b.Fatal "binlog_writer" err = .terminates ∧
      runLoop b sched d
        = ⟨.fatalStop, o.trace ++ [.fatal "binlog_writer" err], o.db,
            [((fillBatch b.BatchSize [firstEvent] rest).1, d)]⟩) ∨
    (∃ err, o.result = .returned (some err) ∧ b.Fatal "binlog_writer" err = .returns ∧
      runLoop b sched d
        = ⟨next.status, o.trace ++ .fatal "binlog_writer" err :: next.trace, next.db,
            ((fillBatch b.BatchSize [firstEvent] rest).1, d) :: next.cycles⟩) := by
  subst hn
  subst ho
  rw [runLoop_cycle b sched rest d firstEvent h]
  cases hres : (WithRetries b.WriteRetries
      (writeEvents b (fillBatch b.BatchSize [firstEvent] rest).1) d).result with
  | panicked msg => exact Or.inl ⟨msg, rfl, rfl⟩
  | returned e =>
    cases e with
    | none => exact Or.inr (Or.inl ⟨rfl, rfl⟩)
    | some err =>
      cases hf : b.Fatal "binlog_writer" err with
      | terminates =>
        refine Or.inr (Or.inr (Or.inl ⟨err, rfl, hf, ?_⟩))
        simp only [hf]
      | returns =>
        refine Or.inr (Or.inr (Or.inr ⟨err, rfl, hf, ?_⟩))
        simp only [hf]

/-- Induction over the cycles of `Run`. -/
theorem runLoop_induction (b : BinlogWriter D) (motive : List (QueueObs E) → Prop)
    (closed : ∀ sched rest, recvBlocking sched = (none, rest) → motive sched)
    (cycle : ∀ sched firstEvent rest, recvBlocking sched = (some firstEvent, rest) →
      motive (fillBatch b.BatchSize [firstEvent] rest).2 → motive sched) :
    ∀ sched, motive sched := by
  intro sched
  generalize hlen : sched.length = n
  induction n using Nat.strong_induction_on generalizing sched with
  | _ n ih =>
    rcases hr : recvBlocking sched with ⟨e, rest⟩
    cases e with
    | none => exact closed sched rest hr
    | some firstEvent =>
      have h1 := recvBlocking_length sched firstEvent rest hr
      have h2 := fillBatch_length_le b.BatchSize [firstEvent] rest
      exact cycle sched firstEvent rest hr (ih _ (by omega) _ rfl)

/-- The batch of a cycle: it starts with the event of the blocking receive,
holds at most `max BatchSize 1` events, and is followed on the channel by what
the inner loop left. -/
theorem cycle_batch (B : Nat) (sched rest : List (QueueObs E)) (firstEvent : E)
    (h : recvBlocking sched = (some firstEvent, rest)) :
    ∃ more, (fillBatch B [firstEvent] rest).1 = firstEvent :: more ∧
      queued sched = firstEvent :: more ++ queued (fillBatch B [firstEvent] rest).2 ∧
      (firstEvent :: more).length ≤ max B 1 := by
  obtain ⟨more, h1, h2, h3⟩ := fillBatch_spec B [firstEvent] rest
  refine ⟨more, by simpa using h1, ?_, by simpa using h3⟩
  rw [recvBlocking_some sched firstEvent rest h, h2]
  simp


/-! ### The write step of a cycle -/

theorem mem_submitted (tr : List (Effect E P)) (batch : List E) :
    batch ∈ submitted tr ↔ Effect.writeEvents batch ∈ tr := by
  unfold submitted
  rw [List.mem_filterMap]
  constructor
  · rintro ⟨x, hx, hb⟩
    cases x <;> simp [Effect.batch?] at hb
    subst hb
    exact hx
  · intro h
    exact ⟨_, h, rfl⟩

theorem fatals_eq_nil (tr : List (Effect E P)) :
    fatals tr = [] ↔ ∀ x ∈ tr, Effect.fatal? x = none := by
  unfold fatals
  rw [List.filterMap_eq_nil_iff]

/-- The write step of a cycle, on a non-empty batch: it returns; every entry
into `writeEvents` is for this batch; `Fatal` is not called; the position is
updated once, to the last event of the batch, when the step ends with `nil`,
and not at all otherwise. -/
theorem WithRetries_writeEvents (b : BinlogWriter D) (batch : List E) (hne : batch ≠ [])
    (n : Nat) (d : D) :
    (∃ err, (WithRetries n (writeEvents b batch) d).result = .returned err) ∧
    (∀ x ∈ submitted (WithRetries n (writeEvents b batch) d).trace, x = batch) ∧
    fatals (WithRetries n (writeEvents b batch) d).trace = [] ∧
    ((WithRetries n (writeEvents b batch) d).result = .returned none →
      positions (WithRetries n (writeEvents b batch) d).trace
        = [DMLEvent.BinlogPosition (batch.getLast hne)]) ∧
    ((WithRetries n (writeEvents b batch) d).result ≠ .returned none →
      positions (WithRetries n (writeEvents b batch) d).trace = []) := by
  unfold WithRetries
  refine ⟨?_, ?_, ?_, ?_⟩
  · obtain ⟨d1, hd1⟩ := retryLoop_result (writeEvents b batch) (n - 1) d
    rw [hd1]
    exact (writeEvents_positions b batch d1 hne).1
  · intro x hx
    rw [mem_submitted] at hx
    have := retryLoop_trace_forall (writeEvents b batch)
      (fun y => ∀ evs, y = Effect.writeEvents evs → evs = batch)
      (fun d1 y hy evs hevs => by
        subst hevs
        have hm := (mem_submitted _ _).mpr hy
        rw [submitted_writeEvents] at hm
        simpa using hm)
      (n - 1) d _ hx
    exact this x rfl
  · rw [fatals_eq_nil]
    exact retryLoop_trace_forall (writeEvents b batch) (fun y => Effect.fatal? y = none)
      (fun d1 => (fatals_eq_nil _).mp (fatals_writeEvents b batch d1)) (n - 1) d
  · exact retryLoop_positions (writeEvents b batch) _
      (fun d1 => (writeEvents_positions b batch d1 hne).2.1)
      (fun d1 => (writeEvents_positions b batch d1 hne).2.2) (n - 1) d

/-! ### Invariants of `Run` -/

/-- No panic unwinds `Run`, and every batch it passes to `writeEvents` is
non-empty and holds at most `max BatchSize 1` events. -/
theorem runLoop_batches (b : BinlogWriter D) (sched : List (QueueObs E)) :
    ∀ d : D, (∀ msg, (runLoop (P := P) b sched d).status ≠ .panicked msg) ∧
      ∀ batch ∈ submitted (runLoop (P := P) b sched d).trace,
        batch ≠ [] ∧ batch.length ≤ max b.BatchSize 1 := by
  induction sched using runLoop_induction b with
  | closed sched rest h =>
    intro d
    rw [runLoop_closed b sched rest d h]
    simp [submitted]
  | cycle sched firstEvent rest h ih =>
    intro d
    obtain ⟨more, hb, _, hlen⟩ := cycle_batch b.BatchSize sched rest firstEvent h
    have hne : (fillBatch b.BatchSize [firstEvent] rest).1 ≠ [] := by rw [hb]; simp
    obtain ⟨⟨e0, hret⟩, hsub, _, _, _⟩ :=
      WithRetries_writeEvents (P := P) b _ hne b.WriteRetries d
    have hsub2 : ∀ x ∈ submitted (WithRetries b.WriteRetries
        (writeEvents (P := P) b (fillBatch b.BatchSize [firstEvent] rest).1) d).trace,
        x ≠ [] ∧ x.length ≤ max b.BatchSize 1 := by
      intro x hx
      rw [hsub x hx, hb]
      exact ⟨by simp, hlen⟩
    have hnext := ih (WithRetries b.WriteRetries
        (writeEvents (P := P) b (fillBatch b.BatchSize [firstEvent] rest).1) d).db
    rcases runLoop_cycle_cases b sched rest d firstEvent h _ rfl _ rfl with
      ⟨msg, hp, _⟩ | ⟨_, hrun⟩ | ⟨err, _, _, hrun⟩ | ⟨err, _, _, hrun⟩
    · rw [hret] at hp
      cases hp
    · rw [hrun]
      refine ⟨hnext.1, fun x hx => ?_⟩
      simp only [submitted, List.filterMap_append, List.mem_append] at hx
      rcases hx with hx | hx
      · exact hsub2 x hx
      · exact hnext.2 x hx
    · rw [hrun]
      refine ⟨by simp, fun x hx => ?_⟩
      simp only [submitted, List.filterMap_append, List.mem_append] at hx
      rcases hx with hx | hx
      · exact hsub2 x hx
      · simp [Effect.batch?] at hx
    · rw [hrun]
      refine ⟨hnext.1, fun x hx => ?_⟩
      simp only [submitted, List.filterMap_append, List.mem_append] at hx
      rcases hx with hx | hx
      · exact hsub2 x hx
      · rw [List.filterMap_cons] at hx
        exact hnext.2 x (by simpa [Effect.batch?, submitted] using hx)

/-- The positions `Run` records are, in order, positions of events the channel
delivered, in the order of delivery. -/
theorem runLoop_positions (b : BinlogWriter D) (sched : List (QueueObs E)) :
    ∀ d : D, List.Sublist (positions (runLoop (P := P) b sched d).trace)
      ((queued sched).map DMLEvent.BinlogPosition) := by
  induction sched using runLoop_induction b with
  | closed sched rest h =>
    intro d
    rw [runLoop_closed b sched rest d h]
    simp [positions]
  | cycle sched firstEvent rest h ih =>
    intro d
    obtain ⟨more, hb, hq, _⟩ := cycle_batch b.BatchSize sched rest firstEvent h
    have hne : (fillBatch b.BatchSize [firstEvent] rest).1 ≠ [] := by rw [hb]; simp
    obtain ⟨_, _, _, hok, herr⟩ :=
      WithRetries_writeEvents (P := P) b _ hne b.WriteRetries d
    have hcyc : List.Sublist (positions (WithRetries b.WriteRetries
        (writeEvents (P := P) b (fillBatch b.BatchSize [firstEvent] rest).1) d).trace)
        ((firstEvent :: more).map DMLEvent.BinlogPosition) := by
      by_cases hr : (WithRetries b.WriteRetries
        (writeEvents (P := P) b (fillBatch b.BatchSize [firstEvent] rest).1) d).result
          = .returned none
      · rw [hok hr, List.singleton_sublist]
        apply List.mem_map_of_mem
        rw [← hb]
        exact List.getLast_mem hne
      · rw [herr hr]
        exact List.nil_sublist _
    have hnext := ih (WithRetries b.WriteRetries
        (writeEvents (P := P) b (fillBatch b.BatchSize [firstEvent] rest).1) d).db
    have hq2 : (queued sched).map (DMLEvent.BinlogPosition (E := E))
        = (firstEvent :: more).map DMLEvent.BinlogPosition
          ++ (queued (fillBatch b.BatchSize [firstEvent] rest).2).map
            DMLEvent.BinlogPosition := by
      rw [hq, ← List.map_append]
    rw [hq2]
    rcases runLoop_cycle_cases b sched rest d firstEvent h _ rfl _ rfl with
      ⟨msg, _, hrun⟩ | ⟨_, hrun⟩ | ⟨err, _, _, hrun⟩ | ⟨err, _, _, hrun⟩
    · rw [hrun]
      exact hcyc.trans (List.sublist_append_left _ _)
    · rw [hrun]
      simp only [positions, List.filterMap_append] at hcyc hnext ⊢
      exact List.Sublist.append hcyc hnext
    · rw [hrun]
      simp only [positions, List.filterMap_append] at hcyc ⊢
      simp only [List.filterMap_cons, Effect.position?, List.filterMap_nil, List.append_nil]
      exact hcyc.trans (List.sublist_append_left _ _)
    · rw [hrun]
      simp only [positions, List.filterMap_append] at hcyc hnext ⊢
      simp only [List.filterMap_cons, Effect.position?]
      exact List.Sublist.append hcyc hnext

/-! ### Write steps that succeed at the first attempt -/

theorem exists_sqls (b : BinlogWriter D) (events : List E)
    (h : ∀ ev ∈ events, ∃ sql, DMLEvent.AsSQLString ev (targetTable b ev) = Except.ok sql) :
    ∃ sqls : List String,
      events.map (fun ev => DMLEvent.AsSQLString ev (targetTable b ev)) = sqls.map Except.ok := by
  induction events with
  | nil => exact ⟨[], rfl⟩
  | cons ev rest ih =>
    obtain ⟨sql, hsql⟩ := h ev (by simp)
    obtain ⟨sqls, hsqls⟩ := ih (fun x hx => h x (by simp [hx]))
    exact ⟨sql :: sqls, by simp [hsql, hsqls]⟩

/-- When every event of the batch renders, `writeEvents` calls `DB.Exec` once,
with the statements of the batch between `BEGIN` and `COMMIT`. -/
theorem writeEvents_execs (b : BinlogWriter D) (events : List E) (sqls : List String) (d : D)
    (hsql : events.map (fun ev => DMLEvent.AsSQLString ev (targetTable b ev))
      = sqls.map Except.ok) :
    execs (writeEvents (P := P) b events d).trace
      = ["BEGIN;\n" ++ String.join (sqls.map (fun sql => sql ++ ";\n")) ++ "COMMIT"] := by
  have hr := renderEvents_ok (P := P) b events sqls "BEGIN;\n" hsql
  have hc := execs_asSQLString (P := P) b events
  simp only [execs] at hc
  rcases hx : b.Exec d ("BEGIN;\n" ++ String.join (sqls.map (fun sql => sql ++ ";\n"))
    ++ "COMMIT") with ⟨e, d1⟩
  cases e with
  | some err =>
    rw [writeEvents_exec_error b events d d1 _ err _ hr hx]
    simp [execs, Effect.query?, hc]
  | none =>
    cases hl : events.getLast? with
    | none =>
      rw [writeEvents_index_panic b events d d1 _ _ hr hx hl]
      simp [execs, Effect.query?, hc]
    | some last =>
      rw [writeEvents_committed b events d d1 _ _ last hr hx hl]
      simp [execs, Effect.query?, hc]

/-- A cycle of `Run` whose first attempt of `writeEvents` succeeds. -/
theorem runLoop_cycle_ok (b : BinlogWriter D) (sched rest : List (QueueObs E)) (d : D)
    (firstEvent : E) (h : recvBlocking sched = (some firstEvent, rest))
    (hres : (writeEvents (P := P) b (fillBatch b.BatchSize [firstEvent] rest).1 d).result
      = .returned none) :
    runLoop (P := P) b sched d
      = { status := (runLoop b (fillBatch b.BatchSize [firstEvent] rest).2
            (writeEvents b (fillBatch b.BatchSize [firstEvent] rest).1 d).db).status
          trace := (writeEvents b (fillBatch b.BatchSize [firstEvent] rest).1 d).trace
            ++ (runLoop b (fillBatch b.BatchSize [firstEvent] rest).2
              (writeEvents b (fillBatch b.BatchSize [firstEvent] rest).1 d).db).trace
          db := (runLoop b (fillBatch b.BatchSize [firstEvent] rest).2
            (writeEvents b (fillBatch b.BatchSize [firstEvent] rest).1 d).db).db
          cycles := ((fillBatch b.BatchSize [firstEvent] rest).1, d) ::
            (runLoop b (fillBatch b.BatchSize [firstEvent] rest).2
              (writeEvents b (fillBatch b.BatchSize [firstEvent] rest).1 d).db).cycles } := by
  have hw : WithRetries b.WriteRetries
      (writeEvents (P := P) b (fillBatch b.BatchSize [firstEvent] rest).1) d
      = writeEvents b (fillBatch b.BatchSize [firstEvent] rest).1 d :=
    retryLoop_of_not_error _ _ d (fun err herr => by rw [hres] at herr; cases herr)
  rw [runLoop_cycle b sched rest d firstEvent h, hw]
  simp only [hres]

/-! ### The cycles of `Run` -/

/-- A cycle that starts by receiving an event is the first one logged. -/
theorem runLoop_cycles_head (b : BinlogWriter D) (sched rest : List (QueueObs E)) (d : D)
    (firstEvent : E) (h : recvBlocking sched = (some firstEvent, rest)) :
    ∃ tail, (runLoop (P := P) b sched d).cycles
      = ((fillBatch b.BatchSize [firstEvent] rest).1, d) :: tail := by
  rcases runLoop_cycle_cases (P := P) b sched rest d firstEvent h _ rfl _ rfl with
    ⟨msg, _, hrun⟩ | ⟨_, hrun⟩ | ⟨err, _, _, hrun⟩ | ⟨err, _, _, hrun⟩ <;>
    · rw [hrun]
      exact ⟨_, rfl⟩

/-- The retried operation enters `writeEvents` once per attempt, at least
once, each time with the same batch. -/
theorem retryLoop_submitted (f : D → Outcome D E P) (batch : List E)
    (hf : ∀ d, submitted (f d).trace = [batch]) (n : Nat) (d : D) :
    ∃ k, 1 ≤ k ∧ submitted (retryLoop f n d).trace = List.replicate k batch := by
  induction n generalizing d with
  | zero =>
    rcases retryLoop_cases f 0 d with h | ⟨m, hm, _, _⟩
    · exact ⟨1, le_refl _, by rw [h, hf]; rfl⟩
    · omega
  | succ j ih =>
    rcases retryLoop_cases f (j + 1) d with h | ⟨m, hm, _, h⟩
    · exact ⟨1, le_refl _, by rw [h, hf]; rfl⟩
    · have hj : m = j := by omega
      subst hj
      obtain ⟨k, hk, hs⟩ := ih (f d).db
      refine ⟨k + 1, by omega, ?_⟩
      rw [h]
      have h0 := hf d
      simp only [submitted, List.filterMap_append] at h0 hs ⊢
      rw [h0, hs, List.replicate_succ]
      rfl

/-- The calls of `writeEvents` in a run are, cycle by cycle, for the batch of
the cycle: once per attempt of its write step, at least once. -/
theorem runLoop_calls (b : BinlogWriter D) (sched : List (QueueObs E)) :
    ∀ d : D, ∃ counts : List Nat,
      counts.length = (runLoop (P := P) b sched d).cycles.length ∧
      (∀ n ∈ counts, 1 ≤ n) ∧
      submitted (runLoop (P := P) b sched d).trace
        = (List.zipWith (fun (c : List E × D) n => List.replicate n c.1)
            (runLoop (P := P) b sched d).cycles counts).flatten := by
  induction sched using runLoop_induction b with
  | closed sched rest h =>
    intro d
    rw [runLoop_closed b sched rest d h]
    exact ⟨[], rfl, by simp, rfl⟩
  | cycle sched firstEvent rest h ih =>
    intro d
    obtain ⟨k, hk, hsub⟩ := retryLoop_submitted (P := P)
      (writeEvents b (fillBatch b.BatchSize [firstEvent] rest).1)
      (fillBatch b.BatchSize [firstEvent] rest).1
      (fun d1 => submitted_writeEvents b _ d1) (b.WriteRetries - 1) d
    have hsub2 : submitted (WithRetries b.WriteRetries
        (writeEvents (P := P) b (fillBatch b.BatchSize [firstEvent] rest).1) d).trace
        = List.replicate k (fillBatch b.BatchSize [firstEvent] rest).1 := hsub
    obtain ⟨counts, hc1, hc2, hc3⟩ := ih (WithRetries b.WriteRetries
        (writeEvents (P := P) b (fillBatch b.BatchSize [firstEvent] rest).1) d).db
    simp only [submitted] at hsub2 hc3
    rcases runLoop_cycle_cases b sched rest d firstEvent h _ rfl _ rfl with
      ⟨msg, _, hrun⟩ | ⟨_, hrun⟩ | ⟨err, _, _, hrun⟩ | ⟨err, _, _, hrun⟩
    · rw [hrun]
      refine ⟨[k], rfl, by simpa using hk, ?_⟩
      simp [submitted, hsub2]
    · rw [hrun]
      refine ⟨k :: counts, by simp [hc1], ?_, ?_⟩
      · intro n hn
        rcases List.mem_cons.mp hn with hn | hn
        · omega
        · exact hc2 n hn
      · simp [submitted, hsub2, hc3]
    · rw [hrun]
      refine ⟨[k], rfl, by simpa using hk, ?_⟩
      simp [submitted, hsub2, Effect.batch?]
    · rw [hrun]
      refine ⟨k :: counts, by simp [hc1], ?_, ?_⟩
      · intro n hn
        rcases List.mem_cons.mp hn with hn | hn
        · omega
        · exact hc2 n hn
      · simp [submitted, hsub2, hc3, Effect.batch?]

/-- When the first attempt of every write step succeeds, `writeEvents` is
called exactly once for the batch of every cycle. -/
theorem runLoop_first_attempts (b : BinlogWriter D) (sched : List (QueueObs E)) :
    ∀ d : D, (∀ c ∈ (runLoop (P := P) b sched d).cycles,
        (writeEvents (P := P) b c.1 c.2).result = .returned none) →
      submitted (runLoop (P := P) b sched d).trace = (runLoop (P := P) b sched d).batches := by
  induction sched using runLoop_induction b with
  | closed sched rest h =>
    intro d _
    rw [runLoop_closed b sched rest d h]
    rfl
  | cycle sched firstEvent rest h ih =>
    intro d hA
    obtain ⟨tail, ht⟩ := runLoop_cycles_head (P := P) b sched rest d firstEvent h
    have hhead := hA _ (by rw [ht]; exact List.mem_cons_self _ _)
    have hrun := runLoop_cycle_ok b sched rest d firstEvent h hhead
    rw [hrun] at hA
    have hnext := ih _ (fun c hc => hA c (List.mem_cons_of_mem _ hc))
    have hsub := submitted_writeEvents (P := P) b (fillBatch b.BatchSize [firstEvent] rest).1 d
    rw [hrun]
    simp only [submitted, RunResult.batches, List.filterMap_append, List.map_cons] at *
    rw [hsub, hnext]
    rfl

/-- When every write step of a run ends in success, on a channel on which no
`nil` was sent: `Run` finishes at the closed channel, the batches of its cycles
make up, in order, the events that were enqueued, the last position of every
batch is recorded, once and in order, and `Fatal` is not called. -/
theorem runLoop_ok (b : BinlogWriter D) (sched : List (QueueObs E)) :
    QueueObs.nilEvent ∉ sched →
    ∀ d : D, (∀ c ∈ (runLoop (P := P) b sched d).cycles,
        (WithRetries b.WriteRetries (writeEvents (P := P) b c.1) c.2).result
          = .returned none) →
      (runLoop (P := P) b sched d).status = .finished ∧
      (runLoop (P := P) b sched d).batches.flatten = queued sched ∧
      positions (runLoop (P := P) b sched d).trace
        = (runLoop (P := P) b sched d).batches.filterMap
            (fun batch => batch.getLast?.map DMLEvent.BinlogPosition) ∧
      fatals (runLoop (P := P) b sched d).trace = [] := by
  induction sched using runLoop_induction b with
  | closed sched rest h =>
    intro hnil d _
    rw [runLoop_closed b sched rest d h, recvBlocking_none sched rest hnil h]
    exact ⟨rfl, rfl, rfl, rfl⟩
  | cycle sched firstEvent rest h ih =>
    intro hnil d hOK
    obtain ⟨more, hb, hq, _⟩ := cycle_batch b.BatchSize sched rest firstEvent h
    have hne : (fillBatch b.BatchSize [firstEvent] rest).1 ≠ [] := by rw [hb]; simp
    have hnil2 : QueueObs.nilEvent ∉ (fillBatch b.BatchSize [firstEvent] rest).2 :=
      fun hm => hnil (recvBlocking_rest_mem sched _ rest h _
        (fillBatch_rest_mem b.BatchSize [firstEvent] rest _ hm))
    obtain ⟨tail, ht⟩ := runLoop_cycles_head (P := P) b sched rest d firstEvent h
    have hhead := hOK _ (by rw [ht]; exact List.mem_cons_self _ _)
    obtain ⟨_, _, hfat, hpos, _⟩ :=
      WithRetries_writeEvents (P := P) b _ hne b.WriteRetries d
    have hpos2 := hpos hhead
    rcases runLoop_cycle_cases b sched rest d firstEvent h _ rfl _ rfl with
      ⟨msg, hp, _⟩ | ⟨_, hrun⟩ | ⟨err, hp, _, _⟩ | ⟨err, hp, _, _⟩
    · rw [hhead] at hp
      cases hp
    · rw [hrun] at hOK
      obtain ⟨i1, i2, i3, i4⟩ := ih hnil2 _ (fun c hc => hOK c (List.mem_cons_of_mem _ hc))
      rw [hrun]
      simp only [RunResult.batches, positions, fatals, List.filterMap_append, List.map_cons,
        List.flatten_cons, List.filterMap_cons] at *
      rw [hpos2, hfat, i3, i4, List.getLast?_eq_getLast _ hne]
      refine ⟨i1, ?_, ?_, rfl⟩
      · rw [hq, i2, hb]
      · simp
    · rw [hhead] at hp
      cases hp
    · rw [hhead] at hp
      cases hp

/-- One call of `writeEvents` calls `DB.Exec` at most once, and exactly once
when it returns `nil`. -/
theorem writeEvents_execs_count (b : BinlogWriter D) (events : List E) (d : D) :
    (execs (writeEvents (P := P) b events d).trace).length ≤ 1 ∧
    ((writeEvents (P := P) b events d).result = .returned none →
      (execs (writeEvents (P := P) b events d).trace).length = 1) := by
  obtain ⟨n, calls, hc, h⟩ := writeEvents_cases (P := P) b events d
  have hs := execs_asSQLString (P := P) b (events.take n)
  rw [← hc] at hs
  simp only [execs] at hs
  rcases h with ⟨_, h⟩ | ⟨_, _, _, h⟩ | ⟨_, _, _, h⟩ | ⟨_, _, _, _, h⟩ <;>
    · rw [h]
      simp [execs, Effect.query?, hs]

/-- The retried write step calls `DB.Exec` at most once per attempt, and at
least once when it ends in success. -/
theorem retryLoop_execs (b : BinlogWriter D) (batch : List E) (n : Nat) (d : D) :
    (execs (retryLoop (writeEvents (P := P) b batch) n d).trace).length
      ≤ (submitted (retryLoop (writeEvents (P := P) b batch) n d).trace).length ∧
    ((retryLoop (writeEvents (P := P) b batch) n d).result = .returned none →
      1 ≤ (execs (retryLoop (writeEvents (P := P) b batch) n d).trace).length) := by
  induction n generalizing d with
  | zero =>
    rcases retryLoop_cases (writeEvents (P := P) b batch) 0 d with h | ⟨m, hm, _, _⟩
    · rw [h, submitted_writeEvents]
      exact ⟨(writeEvents_execs_count b batch d).1,
        fun hr => le_of_eq ((writeEvents_execs_count b batch d).2 hr).symm⟩
    · omega
  | succ j ih =>
    rcases retryLoop_cases (writeEvents (P := P) b batch) (j + 1) d with h | ⟨m, hm, _, h⟩
    · rw [h, submitted_writeEvents]
      exact ⟨(writeEvents_execs_count b batch d).1,
        fun hr => le_of_eq ((writeEvents_execs_count b batch d).2 hr).symm⟩
    · have hj : m = j := by omega
      subst hj
      obtain ⟨i1, i2⟩ := ih (writeEvents (P := P) b batch d).db
      have h1 := (writeEvents_execs_count (P := P) b batch d).1
      have h2 := submitted_writeEvents (P := P) b batch d
      rw [h]
      simp only [execs, submitted, List.filterMap_append, List.length_append] at *
      rw [h2]
      constructor
      · simp only [List.length_cons, List.length_nil]
        omega
      · intro hr
        have := i2 hr
        omega

/-- In a run `DB.Exec` is called at most once per call of `writeEvents`; and
when every write step ends in success, at least once per cycle. -/
theorem runLoop_execs (b : BinlogWriter D) (sched : List (QueueObs E)) :
    ∀ d : D,
      (execs (runLoop (P := P) b sched d).trace).length
        ≤ (submitted (runLoop (P := P) b sched d).trace).length ∧
      ((∀ c ∈ (runLoop (P := P) b sched d).cycles,
          (WithRetries b.WriteRetries (writeEvents (P := P) b c.1) c.2).result
            = .returned none) →
        (runLoop (P := P) b sched d).batches.length
          ≤ (execs (runLoop (P := P) b sched d).trace).length) := by
  induction sched using runLoop_induction b with
  | closed sched rest h =>
    intro d
    rw [runLoop_closed b sched rest d h]
    exact ⟨le_refl _, fun _ => le_refl _⟩
  | cycle sched firstEvent rest h ih =>
    intro d
    obtain ⟨e1, e2⟩ := retryLoop_execs (P := P) b
      (fillBatch b.BatchSize [firstEvent] rest).1 (b.WriteRetries - 1) d
    have e1w : (execs (WithRetries b.WriteRetries
        (writeEvents (P := P) b (fillBatch b.BatchSize [firstEvent] rest).1) d).trace).length
        ≤ (submitted (WithRetries b.WriteRetries
          (writeEvents (P := P) b (fillBatch b.BatchSize [firstEvent] rest).1) d).trace).length :=
      e1
    have e2w : (WithRetries b.WriteRetries
        (writeEvents (P := P) b (fillBatch b.BatchSize [firstEvent] rest).1) d).result
          = .returned none →
        1 ≤ (execs (WithRetries b.WriteRetries
          (writeEvents (P := P) b (fillBatch b.BatchSize [firstEvent] rest).1) d).trace).length :=
      e2
    obtain ⟨i1, i2⟩ := ih (WithRetries b.WriteRetries
        (writeEvents (P := P) b (fillBatch b.BatchSize [firstEvent] rest).1) d).db
    rcases runLoop_cycle_cases b sched rest d firstEvent h _ rfl _ rfl with
      ⟨msg, hp, hrun⟩ | ⟨hp, hrun⟩ | ⟨err, hp, _, hrun⟩ | ⟨err, hp, _, hrun⟩
    · rw [hrun]
      refine ⟨e1w, fun hOK => ?_⟩
      have := hOK _ (List.mem_cons_self _ _)
      rw [this] at hp
      cases hp
    · rw [hrun]
      constructor
      · simp only [execs, submitted, List.filterMap_append, List.length_append] at *
        omega
      · intro hOK
        have i3 := i2 (fun c hc => hOK c (List.mem_cons_of_mem _ hc))
        have e3 := e2w hp
        simp only [execs, RunResult.batches, List.filterMap_append, List.length_append,
          List.map_cons, List.length_cons] at *
        omega
    · rw [hrun]
      constructor
      · simp only [execs, submitted, List.filterMap_append, List.length_append,
          List.filterMap_cons, Effect.query?, Effect.batch?, List.filterMap_nil,
          List.length_nil] at *
        omega
      · intro hOK
        have := hOK _ (List.mem_cons_self _ _)
        rw [this] at hp
        cases hp
    · rw [hrun]
      constructor
      · simp only [execs, submitted, List.filterMap_append, List.length_append,
          List.filterMap_cons, Effect.query?, Effect.batch?] at *
        omega
      · intro hOK
        have := hOK _ (List.mem_cons_self _ _)
        rw [this] at hp
        cases hp

/-- The batches of the cycles are taken off the queue in order, from its
head: concatenated, they are an initial segment of the enqueued events. -/
theorem runLoop_batches_queue (b : BinlogWriter D) (sched : List (QueueObs E)) :
    ∀ d : D, ∃ later, (runLoop (P := P) b sched d).batches.flatten ++ later = queued sched := by
  induction sched using runLoop_induction b with
  | closed sched rest h =>
    intro d
    rw [runLoop_closed b sched rest d h]
    exact ⟨queued sched, rfl⟩
  | cycle sched firstEvent rest h ih =>
    intro d
    obtain ⟨more, hb, hq, _⟩ := cycle_batch b.BatchSize sched rest firstEvent h
    obtain ⟨later, hl⟩ := ih (WithRetries b.WriteRetries
        (writeEvents (P := P) b (fillBatch b.BatchSize [firstEvent] rest).1) d).db
    simp only [RunResult.batches] at hl
    rcases runLoop_cycle_cases b sched rest d firstEvent h _ rfl _ rfl with
      ⟨msg, _, hrun⟩ | ⟨_, hrun⟩ | ⟨err, _, _, hrun⟩ | ⟨err, _, _, hrun⟩
    · rw [hrun]
      exact ⟨queued (fillBatch b.BatchSize [firstEvent] rest).2, by
        simp [RunResult.batches, hq, hb]⟩
    · rw [hrun]
      exact ⟨later, by simp [RunResult.batches, hq, hb, ← hl]⟩
    · rw [hrun]
      exact ⟨queued (fillBatch b.BatchSize [firstEvent] rest).2, by
        simp [RunResult.batches, hq, hb]⟩
    · rw [hrun]
      exact ⟨later, by simp [RunResult.batches, hq, hb, ← hl]⟩

/-- The batch of every cycle is non-empty. -/
theorem runLoop_cycle_batches (b : BinlogWriter D) (sched : List (QueueObs E)) :
    ∀ d : D, ∀ batch ∈ (runLoop (P := P) b sched d).batches, batch ≠ [] := by
  induction sched using runLoop_induction b with
  | closed sched rest h =>
    intro d
    rw [runLoop_closed b sched rest d h]
    simp [RunResult.batches]
  | cycle sched firstEvent rest h ih =>
    intro d
    obtain ⟨more, hb, _, _⟩ := cycle_batch b.BatchSize sched rest firstEvent h
    have hnext := ih (WithRetries b.WriteRetries
        (writeEvents (P := P) b (fillBatch b.BatchSize [firstEvent] rest).1) d).db
    simp only [RunResult.batches] at hnext
    rcases runLoop_cycle_cases b sched rest d firstEvent h _ rfl _ rfl with
      ⟨msg, _, hrun⟩ | ⟨_, hrun⟩ | ⟨err, _, _, hrun⟩ | ⟨err, _, _, hrun⟩ <;>
      · rw [hrun]
        intro batch hbatch
        simp only [RunResult.batches, List.map_cons, List.map_nil, List.mem_cons,
          List.not_mem_nil, or_false] at hbatch
        first
          | (rw [hbatch, hb]; simp)
          | (rcases hbatch with hbatch | hbatch
             · rw [hbatch, hb]; simp
             · exact hnext batch hbatch)

/-! ### Batch sizes on a channel on which every event is ready -/

theorem chunkSizes_step (B n : Nat) (hB : 0 < B) (hn : 0 < n) :
    chunkSizes B n = min B n :: chunkSizes B (n - B) := by
  by_cases hle : n ≤ B
  · have hc : (n + B - 1) / B = 1 := by
      apply Nat.div_eq_of_lt_le <;> omega
    have h0 : n - B = 0 := by omega
    have hm : min B n = n := by omega
    unfold chunkSizes
    rw [h0, hm, hc]
    simp [show n ≠ 0 by omega]
  · have hm : min B n = B := by omega
    have hpos : 0 < n - B := by omega
    have hc : (n + B - 1) / B = (n - B + B - 1) / B + 1 := by
      have : n + B - 1 = (n - B + B - 1) + B := by omega
      rw [this, Nat.add_div_right _ hB]
    have hc1 : 1 ≤ (n - B + B - 1) / B := by
      apply Nat.div_pos <;> omega
    obtain ⟨k, hk⟩ : ∃ k, (n - B + B - 1) / B = k + 1 := ⟨(n - B + B - 1) / B - 1, by omega⟩
    unfold chunkSizes
    rw [hm, hc, hk]
    have hne : n ≠ 0 := by omega
    have hne2 : n - B ≠ 0 := by omega
    simp only [hne, hne2, if_false, Nat.add_sub_cancel, List.replicate_succ, List.cons_append,
      List.cons.injEq, true_and, List.append_cancel_left_eq]
    rw [Nat.mul_succ]
    generalize B * k = t
    exact ⟨by omega, trivial⟩

theorem chunkSizes_length (B n : Nat) (hB : 0 < B) :
    (chunkSizes B n).length = (n + B - 1) / B := by
  unfold chunkSizes
  by_cases hn : n = 0
  · subst hn
    simp only [if_true, List.length_nil, Nat.zero_add]
    exact (Nat.div_eq_of_lt (by omega)).symm
  · have hc1 : 1 ≤ (n + B - 1) / B := by
      apply Nat.div_pos <;> omega
    simp only [hn, if_false, List.length_append, List.length_replicate, List.length_cons,
      List.length_nil]
    omega

theorem queued_events (l : List E) : queued (l.map QueueObs.event) = l := by
  induction l with
  | nil => rfl
  | cons x tl ih => simp [queued, ih]

/-- On a channel on which every event is ready, when every write step ends in
success, the batches of the cycles are the consecutive chunks of
`max BatchSize 1` events. -/
theorem runLoop_chunk_sizes (b : BinlogWriter D) (evs : List E) :
    ∀ d : D, (∀ c ∈ (runLoop (P := P) b (evs.map QueueObs.event) d).cycles,
        (WithRetries b.WriteRetries (writeEvents (P := P) b c.1) c.2).result
          = .returned none) →
      (runLoop (P := P) b (evs.map QueueObs.event) d).batches.map List.length
        = chunkSizes (max b.BatchSize 1) evs.length := by
  generalize hlen : evs.length = n
  induction n using Nat.strong_induction_on generalizing evs with
  | _ n ih =>
    intro d hOK
    cases evs with
    | nil =>
      simp only [List.length_nil] at hlen
      subst hlen
      rw [List.map_nil, runLoop_closed b [] [] d rfl]
      simp [RunResult.batches, chunkSizes]
    | cons e tl =>
      simp only [List.length_cons] at hlen
      have h : recvBlocking ((e :: tl).map QueueObs.event)
          = (some e, tl.map QueueObs.event) := rfl
      have hf : fillBatch b.BatchSize [e] (tl.map QueueObs.event)
          = (e :: tl.take (b.BatchSize - 1),
              (tl.drop (b.BatchSize - 1)).map QueueObs.event) := by
        rw [fillBatch_events]
        simp
      obtain ⟨tail, ht⟩ := runLoop_cycles_head (P := P) b _ _ d e h
      have hhead := hOK _ (by rw [ht]; exact List.mem_cons_self _ _)
      rcases runLoop_cycle_cases b _ _ d e h _ rfl _ rfl with
        ⟨msg, hp, _⟩ | ⟨_, hrun⟩ | ⟨err, hp, _, _⟩ | ⟨err, hp, _, _⟩
      · rw [hhead] at hp
        cases hp
      · rw [hrun] at hOK
        rw [hf] at hrun hOK
        have hi := ih (tl.drop (b.BatchSize - 1)).length
          (by rw [List.length_drop]; omega) _ rfl _
          (fun c hc => hOK c (List.mem_cons_of_mem _ hc))
        rw [hrun]
        simp only [RunResult.batches, List.map_cons] at hi ⊢
        rw [hi, chunkSizes_step (max b.BatchSize 1) n (by omega) (by omega)]
        simp only [List.length_cons, List.length_take, List.length_drop, List.cons.injEq]
        constructor
        · omega
        · congr 1
          omega
      · rw [hhead] at hp
        cases hp
      · rw [hhead] at hp
        cases hp

/-- The trace of a run is, cycle by cycle, the calls of the write step of the
cycle followed, when the write step failed, by the call of `Fatal` with its
error. -/
theorem runLoop_trace_cycles (b : BinlogWriter D) (sched : List (QueueObs E)) :
    ∀ d : D, (runLoop (P := P) b sched d).trace
      = ((runLoop (P := P) b sched d).cycles.map (fun c =>
          (WithRetries b.WriteRetries (writeEvents (P := P) b c.1) c.2).trace ++
            match (WithRetries b.WriteRetries (writeEvents (P := P) b c.1) c.2).result with
            | .returned (some err) => [Effect.fatal "binlog_writer" err]
            | _ => [])).flatten := by
  induction sched using runLoop_induction b with
  | closed sched rest h =>
    intro d
    rw [runLoop_closed b sched rest d h]
    rfl
  | cycle sched firstEvent rest h ih =>
    intro d
    have hnext := ih (WithRetries b.WriteRetries
        (writeEvents (P := P) b (fillBatch b.BatchSize [firstEvent] rest).1) d).db
    rcases runLoop_cycle_cases b sched rest d firstEvent h _ rfl _ rfl with
      ⟨msg, hp, hrun⟩ | ⟨hp, hrun⟩ | ⟨err, hp, _, hrun⟩ | ⟨err, hp, _, hrun⟩
    · rw [hrun]
      simp only [List.map_cons, List.map_nil, List.flatten_cons, List.flatten_nil, hp,
        List.append_nil]
    · rw [hrun]
      simp only [List.map_cons, List.flatten_cons, hp, List.append_nil]
      rw [← hnext]
    · rw [hrun]
      simp only [List.map_cons, List.map_nil, List.flatten_cons, List.flatten_nil, hp,
        List.append_nil]
    · rw [hrun]
      simp only [List.map_cons, List.flatten_cons, hp]
      rw [← hnext]
      simp

/-- A cycle whose write step fails and whose call of `Fatal` does not hand
control back is the last cycle of the run. -/
theorem runLoop_fatal_cycle (b : BinlogWriter D) (sched : List (QueueObs E)) :
    ∀ (d : D) (pre : List (List E × D)) (c : List E × D) (post : List (List E × D))
      (err : String),
      (runLoop (P := P) b sched d).cycles = pre ++ c :: post →
      (WithRetries b.WriteRetries (writeEvents (P := P) b c.1) c.2).result
        = .returned (some err) →
      b.Fatal "binlog_writer" err = .terminates →
      post = [] ∧ (runLoop (P := P) b sched d).status = .fatalStop := by
  induction sched using runLoop_induction b with
  | closed sched rest h =>
    intro d pre c post err hc _ _
    rw [runLoop_closed b sched rest d h] at hc
    simp at hc
  | cycle sched firstEvent rest h ih =>
    intro d pre c post err hc hres hfatal
    rcases runLoop_cycle_cases b sched rest d firstEvent h _ rfl _ rfl with
      ⟨msg, hp, hrun⟩ | ⟨hp, hrun⟩ | ⟨err1, hp, hf, hrun⟩ | ⟨err1, hp, hf, hrun⟩
    · rw [hrun] at hc
      cases pre with
      | nil =>
        simp only [List.nil_append, List.cons.injEq] at hc
        rw [← hc.1] at hres
        rw [hres] at hp
        cases hp
      | cons p pre1 =>
        simp at hc
    · rw [hrun] at hc ⊢
      cases pre with
      | nil =>
        simp only [List.nil_append, List.cons.injEq] at hc
        rw [← hc.1] at hres
        rw [hres] at hp
        cases hp
      | cons p pre1 =>
        simp only [List.cons_append, List.cons.injEq] at hc
        exact ih _ pre1 c post err hc.2 hres hfatal
    · rw [hrun] at hc ⊢
      cases pre with
      | nil =>
        simp only [List.nil_append, List.cons.injEq] at hc
        exact ⟨hc.2.symm, rfl⟩
      | cons p pre1 =>
        simp at hc
    · rw [hrun] at hc ⊢
      cases pre with
      | nil =>
        simp only [List.nil_append, List.cons.injEq] at hc
        rw [← hc.1] at hres
        rw [hres] at hp
        simp only [CallResult.returned.injEq, Option.some.injEq] at hp
        rw [hp, hf] at hfatal
        cases hfatal
      | cons p pre1 =>
        simp only [List.cons_append, List.cons.injEq] at hc
        exact ih _ pre1 c post err hc.2 hres hfatal

/-- The last recorded position, when the last position of every batch is
recorded, is the position of the last event of all. -/
theorem getLast_filterMap_flatten {α β : Type} (f : α → β) (L : List (List α))
    (h : ∀ l ∈ L, l ≠ []) :
    (L.filterMap (fun l => l.getLast?.map f)).getLast? = L.flatten.getLast?.map f := by
  induction L with
  | nil => rfl
  | cons l tl ih =>
    have hl : l ≠ [] := h l (by simp)
    have ih2 := ih (fun x hx => h x (by simp [hx]))
    rw [List.filterMap_cons, List.getLast?_eq_getLast l hl]
    simp only [Option.map_some']
    rw [List.getLast?_cons, ih2, List.flatten_cons, List.getLast?_append,
      List.getLast?_eq_getLast l hl]
    cases tl.flatten.getLast? <;> simp


/-! ### Rendering calls of `writeEvents` -/

theorem targetTable_eq (b : BinlogWriter D) (ev : E) :
    targetTable b ev
      = { Schema := (b.DatabaseRewrites (DMLEvent.Database ev)).getD (DMLEvent.Database ev)
          Name := (b.TableRewrites (DMLEvent.Table ev)).getD (DMLEvent.Table ev) } := by
  unfold targetTable
  cases b.DatabaseRewrites (DMLEvent.Database ev) <;>
    cases b.TableRewrites (DMLEvent.Table ev) <;> rfl

/-- The calls of `AsSQLString` of `writeEvents` are those of its loop. -/
theorem renderings_writeEvents (b : BinlogWriter D) (events : List E) (d : D) :
    renderings (writeEvents (P := P) b events d).trace
      = renderings (renderEvents (P := P) b events "BEGIN;\n").2 := by
  rcases hr : renderEvents (P := P) b events "BEGIN;\n" with ⟨r, calls⟩
  cases r with
  | error msg =>
    rw [writeEvents_render_error b events d msg calls hr]
    simp [renderings, Effect.rendering?]
  | ok queryBuffer =>
    rcases hx : b.Exec d (queryBuffer ++ "COMMIT") with ⟨e, d1⟩
    cases e with
    | some err =>
      rw [writeEvents_exec_error b events d d1 queryBuffer err calls hr hx]
      simp [renderings, Effect.rendering?]
    | none =>
      cases hl : events.getLast? with
      | none =>
        rw [writeEvents_index_panic b events d d1 queryBuffer calls hr hx hl]
        simp [renderings, Effect.rendering?]
      | some last =>
        rw [writeEvents_committed b events d d1 queryBuffer calls last hr hx hl]
        simp [renderings, Effect.rendering?]

/-- A batch in which some event does not render has a first such event. -/
theorem first_failure (b : BinlogWriter D) (events : List E)
    (h : ∃ ev ∈ events, ∃ err, DMLEvent.AsSQLString ev (targetTable b ev) = Except.error err) :
    ∃ pre ev post err, events = pre ++ ev :: post ∧
      (∀ x ∈ pre, ∃ sql, DMLEvent.AsSQLString x (targetTable b x) = Except.ok sql) ∧
      DMLEvent.AsSQLString ev (targetTable b ev) = Except.error err := by
  induction events with
  | nil =>
    obtain ⟨ev, hev, _⟩ := h
    simp at hev
  | cons x tl ih =>
    cases hx : DMLEvent.AsSQLString x (targetTable b x) with
    | error err => exact ⟨[], x, tl, err, rfl, by simp, hx⟩
    | ok sql =>
      obtain ⟨ev, hev, err, herr⟩ := h
      have hin : ev ∈ tl := by
        rcases List.mem_cons.mp hev with heq | hmem
        · subst heq
          rw [hx] at herr
          cases herr
        · exact hmem
      obtain ⟨pre, ev1, post, err1, h1, h2, h3⟩ := ih ⟨ev, hin, err, herr⟩
      refine ⟨x :: pre, ev1, post, err1, by simp [h1], ?_, h3⟩
      intro y hy
      rcases List.mem_cons.mp hy with heq | hmem
      · subst heq
        exact ⟨sql, hx⟩
      · exact h2 y hmem

/-- A rendering failure: `writeEvents` returns the rendering error of the
first event that does not render, without a call of `DB.Exec` and without a
position update. -/
theorem writeEvents_render_failure (b : BinlogWriter D) (pre : List E) (ev : E)
    (post : List E) (err : String) (d : D)
    (hpre : ∀ x ∈ pre, ∃ sql, DMLEvent.AsSQLString x (targetTable b x) = Except.ok sql)
    (hev : DMLEvent.AsSQLString ev (targetTable b ev) = Except.error err) :
    (writeEvents (P := P) b (pre ++ ev :: post) d).result
        = .returned (some ("generating sql query: " ++ err)) ∧
      execs (writeEvents (P := P) b (pre ++ ev :: post) d).trace = [] ∧
      positions (writeEvents (P := P) b (pre ++ ev :: post) d).trace = [] ∧
      (writeEvents (P := P) b (pre ++ ev :: post) d).db = d := by
  have hr := renderEvents_error (P := P) b pre ev post err "BEGIN;\n" hpre hev
  rw [writeEvents_render_error b _ d _ _ hr]
  have h1 := execs_asSQLString (P := P) b (pre ++ [ev])
  have h2 := positions_asSQLString (P := P) b (pre ++ [ev])
  simp only [execs, positions] at h1 h2
  refine ⟨rfl, ?_, ?_, rfl⟩
  · simp only [execs, List.filterMap_cons, Effect.query?]
    exact h1
  · simp only [positions, List.filterMap_cons, Effect.position?]
    exact h2


/-! ## The claims -/

/-- C5: when every event of a batch renders, `writeEvents` calls `DB.Exec`
exactly once, and the query is `"BEGIN;\n"`, then for each event in batch order
its SQL followed by `";\n"`, then `"COMMIT"`. -/
theorem writeEvents_single_transaction (b : BinlogWriter D) (events : List E)
    (sqls : List String) (d : D)
    (hsql : events.map (fun ev => DMLEvent.AsSQLString ev (targetTable b ev))
      = sqls.map Except.ok) :
    execs (writeEvents b events d).trace
      = ["BEGIN;\n" ++ String.join (sqls.map (fun sql => sql ++ ";\n")) ++ "COMMIT"] :=
  writeEvents_execs b events sqls d hsql

/-- The scenario of three `orders` events at positions 10, 11, 12 with the
rewrite of `src` to `dst`: one executed unit, three statements in position
order, addressed to `dst.orders`. -/
theorem writeEvents_single_transaction_witness :
    execs (writeEvents (steadyWriter 10 3) [order 10, order 11, order 12] ()).trace
      = ["BEGIN;\nINSERT INTO dst.orders;\nINSERT INTO dst.orders;\nINSERT INTO dst.orders;\nCOMMIT"] :=
  writeEvents_single_transaction (steadyWriter 10 3) [order 10, order 11, order 12]
    ["INSERT INTO dst.orders", "INSERT INTO dst.orders", "INSERT INTO dst.orders"] () (by rfl)

/-- C6: the target identity that `writeEvents` passes to `AsSQLString` has
the schema `DatabaseRewrites[ev.Database()]` when that key is present and
`ev.Database()` otherwise, and the name `TableRewrites[ev.Table()]` when that
key is present and `ev.Table()` otherwise, each looked up on its own; and when
no rendering fails, every event of the batch is rendered, in batch order. -/
theorem writeEvents_target_identity (b : BinlogWriter D) (events : List E) (d : D) :
    (∀ call ∈ renderings (writeEvents b events d).trace,
      call.2 = { Schema := (b.DatabaseRewrites (DMLEvent.Database call.1)).getD
                   (DMLEvent.Database call.1)
                 Name := (b.TableRewrites (DMLEvent.Table call.1)).getD
                   (DMLEvent.Table call.1) }) ∧
    ((∀ ev ∈ events, ∃ sql, DMLEvent.AsSQLString ev
        { Schema := (b.DatabaseRewrites (DMLEvent.Database ev)).getD (DMLEvent.Database ev)
          Name := (b.TableRewrites (DMLEvent.Table ev)).getD (DMLEvent.Table ev) }
          = Except.ok sql) →
      (renderings (writeEvents b events d).trace).map Prod.fst = events) := by
  rw [renderings_writeEvents]
  constructor
  · obtain ⟨n, hn⟩ := renderEvents_calls (P := P) b events "BEGIN;\n"
    rw [hn, renderings_asSQLString]
    intro call hcall
    obtain ⟨ev, _, hev⟩ := List.mem_map.mp hcall
    rw [← hev]
    exact targetTable_eq b ev
  · intro hall
    obtain ⟨sqls, hsql⟩ := exists_sqls b events
      (fun ev hev => by rw [targetTable_eq]; exact hall ev hev)
    rw [renderEvents_ok b events sqls "BEGIN;\n" hsql, renderings_asSQLString, List.map_map]
    have hid : (Prod.fst ∘ fun ev : E => (ev, targetTable b ev)) = id := rfl
    rw [hid, List.map_id]

/-- An event of the rewritten database `src` and one of a database without an
entry, both of a table without an entry: the first is rendered for
`dst.orders`, the second for its source identity `other.orders`. -/
theorem writeEvents_target_identity_witness :
    renderings (writeEvents (steadyWriter 10 3)
        [order 10, { order 11 with database := "other" }] ()).trace
      = [(order 10, { Schema := "dst", Name := "orders" }),
         ({ order 11 with database := "other" }, { Schema := "other", Name := "orders" })] ∧
    (renderings (writeEvents (steadyWriter 10 3)
        [order 10, { order 11 with database := "other" }] ()).trace).map Prod.fst
      = [order 10, { order 11 with database := "other" }] :=
  ⟨by rfl, (writeEvents_target_identity (steadyWriter 10 3)
    [order 10, { order 11 with database := "other" }] ()).2
      (fun ev hev => by
        simp only [List.mem_cons, List.mem_singleton, List.not_mem_nil, or_false] at hev
        rcases hev with h | h <;> subst h <;> exact ⟨_, rfl⟩)⟩

/-- C8: when some event of the batch does not render, `writeEvents` returns
the error "generating sql query: ..." wrapping the error of the first such
event, and `DB.Exec` is not called: nothing of the batch reaches the target. -/
theorem writeEvents_render_failure_no_exec (b : BinlogWriter D) (events : List E) (d : D)
    (hfail : ∃ ev ∈ events, ∃ err,
      DMLEvent.AsSQLString ev (targetTable b ev) = Except.error err) :
    ∃ pre ev post err, events = pre ++ ev :: post ∧
      (∀ x ∈ pre, ∃ sql, DMLEvent.AsSQLString x (targetTable b x) = Except.ok sql) ∧
      DMLEvent.AsSQLString ev (targetTable b ev) = Except.error err ∧
      (writeEvents b events d).result = .returned (some ("generating sql query: " ++ err)) ∧
      execs (writeEvents b events d).trace = [] ∧
      positions (writeEvents b events d).trace = [] ∧
      (writeEvents b events d).db = d := by
  obtain ⟨pre, ev, post, err, h1, h2, h3⟩ := first_failure b events hfail
  subst h1
  exact ⟨pre, ev, post, err, rfl, h2, h3,
    writeEvents_render_failure b pre ev post err d h2 h3⟩

/-- A batch whose second event cannot be rendered: the rendering error is
returned and nothing is executed, the first event's statement included. -/
theorem writeEvents_render_failure_no_exec_witness :
    ∃ pre ev post err,
      [order 10, { order 11 with verb := none }, order 12] = pre ++ ev :: post ∧
      (∀ x ∈ pre, ∃ sql,
        DMLEvent.AsSQLString x (targetTable (steadyWriter 10 3) x) = Except.ok sql) ∧
      DMLEvent.AsSQLString ev (targetTable (steadyWriter 10 3) ev) = Except.error err ∧
      (writeEvents (steadyWriter 10 3)
          [order 10, { order 11 with verb := none }, order 12] ()).result
        = .returned (some ("generating sql query: " ++ err)) ∧
      execs (writeEvents (steadyWriter 10 3)
          [order 10, { order 11 with verb := none }, order 12] ()).trace = [] ∧
      positions (writeEvents (steadyWriter 10 3)
          [order 10, { order 11 with verb := none }, order 12] ()).trace = [] ∧
      (writeEvents (steadyWriter 10 3)
          [order 10, { order 11 with verb := none }, order 12] ()).db = () :=
  writeEvents_render_failure_no_exec (steadyWriter 10 3)
    [order 10, { order 11 with verb := none }, order 12] ()
    ⟨{ order 11 with verb := none }, by simp, "unsupported event", rfl⟩


/-- C3: one attempt of `writeEvents` on a non-empty batch returns, and either
it returns `nil` and the position was updated exactly once, to the position of
the last event of the batch, or it returns an error and the position was not
updated.  Hence the retried write step, whatever the budget and however many
attempts fail first, updates the position exactly once when it ends in success
and not at all when every attempt fails. -/
theorem writeEvents_checkpoint_all_or_nothing (b : BinlogWriter D) (events : List E) (d : D)
    (hne : events ≠ []) :
    (∃ err, (writeEvents b events d).result = .returned err) ∧
    ((writeEvents b events d).result = .returned none →
      positions (writeEvents b events d).trace
        = [DMLEvent.BinlogPosition (events.getLast hne)]) ∧
    (∀ err, (writeEvents b events d).result = .returned (some err) →
      positions (writeEvents b events d).trace = []) ∧
    (∀ budget,
      ((WithRetries budget (writeEvents b events) d).result = .returned none →
        positions (WithRetries budget (writeEvents b events) d).trace
          = [DMLEvent.BinlogPosition (events.getLast hne)]) ∧
      (∀ err, (WithRetries budget (writeEvents b events) d).result = .returned (some err) →
        positions (WithRetries budget (writeEvents b events) d).trace = [])) := by
  have h1 := writeEvents_positions b events d hne
  refine ⟨h1.1, h1.2.1, fun err herr => h1.2.2 (by rw [herr]; simp), fun budget => ?_⟩
  have h2 := WithRetries_writeEvents b events hne budget d
  exact ⟨h2.2.2.2.1, fun err herr => h2.2.2.2.2 (by rw [herr]; simp)⟩

/-- The scenario of an execution that fails twice and then succeeds within a
budget of 3: three calls of `Exec`, one position update, to the last event. -/
theorem writeEvents_checkpoint_all_or_nothing_witness :
    (execs (WithRetries 3 (writeEvents (flakyWriter 2 10 3 .terminates)
      [order 10, order 11, order 12]) 0).trace).length = 3 ∧
    positions (WithRetries 3 (writeEvents (flakyWriter 2 10 3 .terminates)
      [order 10, order 11, order 12]) 0).trace = [12] :=
  ⟨by rfl,
    ((writeEvents_checkpoint_all_or_nothing (flakyWriter 2 10 3 .terminates)
      [order 10, order 11, order 12] 0 (by simp)).2.2.2 3).1 (by rfl)⟩

/-- C1 (as amended): for every sequence of events (no `nil` among them)
enqueued before `Stop` and every batch size, when every write step ends in
success, `Run` ends at the closed channel and the batches of its cycles,
concatenated in order, are exactly the enqueued events, wherever the batch
boundaries fall; the last position of every batch is recorded, once and in
order, and `Fatal` is not called.  `writeEvents` is called for the batch of a
cycle once per attempt of its write step, and `DB.Exec` at most once per call
and at least once per cycle: each exactly once for every batch when no attempt
fails. -/
theorem Run_preserves_order (b : BinlogWriter D) (sched : List (QueueObs E)) (d : D)
    (hnil : QueueObs.nilEvent ∉ sched)
    (hOK : ∀ c ∈ (Run b sched d).cycles,
      (WithRetries b.WriteRetries (writeEvents b c.1) c.2).result = .returned none) :
    (Run b sched d).status = .finished ∧
    (Run b sched d).batches.flatten = queued sched ∧
    positions (Run b sched d).trace
      = (Run b sched d).batches.filterMap
          (fun batch => batch.getLast?.map DMLEvent.BinlogPosition) ∧
    fatals (Run b sched d).trace = [] ∧
    (Run b sched d).batches.length ≤ (execs (Run b sched d).trace).length ∧
    (execs (Run b sched d).trace).length ≤ (submitted (Run b sched d).trace).length ∧
    (∃ counts : List Nat, counts.length = (Run b sched d).cycles.length ∧
      (∀ n ∈ counts, 1 ≤ n) ∧
      submitted (Run b sched d).trace
        = (List.zipWith (fun (c : List E × D) n => List.replicate n c.1)
            (Run b sched d).cycles counts).flatten) ∧
    ((∀ c ∈ (Run b sched d).cycles, (writeEvents b c.1 c.2).result = .returned none) →
      submitted (Run b sched d).trace = (Run b sched d).batches ∧
      (execs (Run b sched d).trace).length = (Run b sched d).batches.length) := by
  obtain ⟨h1, h2, h3, h4⟩ := runLoop_ok b sched hnil d hOK
  obtain ⟨h5, h6⟩ := runLoop_execs (P := P) b sched d
  refine ⟨h1, h2, h3, h4, h6 hOK, h5, runLoop_calls b sched d, fun hA => ?_⟩
  have h7 := runLoop_first_attempts (P := P) b sched d hA
  refine ⟨h7, Nat.le_antisymm ?_ (h6 hOK)⟩
  have h8 : (execs (runLoop (P := P) b sched d).trace).length
      ≤ (submitted (runLoop (P := P) b sched d).trace).length := h5
  rw [h7] at h8
  exact h8

/-- Three events on a target that fails its first two calls, batch size 2, a
budget of 3: the first write step succeeds at its third attempt, and the
batches of the two cycles make up the three events. -/
theorem Run_preserves_order_witness :
    (Run (flakyWriter 2 2 3 .terminates)
      [.event (order 10), .event (order 11), .event (order 12)] 0).batches.flatten
        = [order 10, order 11, order 12] ∧
    positions (Run (flakyWriter 2 2 3 .terminates)
      [.event (order 10), .event (order 11), .event (order 12)] 0).trace = [11, 12] :=
  have hcycles : (Run (flakyWriter 2 2 3 .terminates)
      [.event (order 10), .event (order 11), .event (order 12)] 0).cycles
        = [([order 10, order 11], 0), ([order 12], 3)] := by
    simp [Run, runLoop, recvBlocking, fillBatch, WithRetries, retryLoop, writeEvents,
      renderEvents, targetTable, flakyWriter, order, DMLEvent.AsSQLString, DMLEvent.Database,
      DMLEvent.Table, DMLEvent.BinlogPosition]
  have h := Run_preserves_order (flakyWriter 2 2 3 .terminates)
    [.event (order 10), .event (order 11), .event (order 12)] 0 (by decide)
    (fun c hc => by
      rw [hcycles] at hc
      simp only [List.mem_cons, List.mem_singleton, List.not_mem_nil, or_false] at hc
      rcases hc with hc | hc <;> subst hc <;> rfl)
  ⟨h.2.1, h.2.2.1.trans (by rw [RunResult.batches, hcycles]; rfl)⟩

/-- C1 as stated fails: in the same run every write step ends in success, yet
the batches passed to `writeEvents`, concatenated in the order of the calls,
repeat the first batch once per failed attempt. -/
theorem Run_resubmits_on_retry :
    (∀ c ∈ (Run (flakyWriter 2 2 3 .terminates)
        [.event (order 10), .event (order 11), .event (order 12)] 0).cycles,
      (WithRetries (flakyWriter 2 2 3 .terminates).WriteRetries
        (writeEvents (flakyWriter 2 2 3 .terminates) c.1) c.2).result = .returned none) ∧
    (Run (flakyWriter 2 2 3 .terminates)
      [.event (order 10), .event (order 11), .event (order 12)] 0).status = .finished ∧
    queued [QueueObs.event (order 10), .event (order 11), .event (order 12)]
      = [order 10, order 11, order 12] ∧
    (submitted (Run (flakyWriter 2 2 3 .terminates)
      [.event (order 10), .event (order 11), .event (order 12)] 0).trace).flatten
        = [order 10, order 11, order 10, order 11, order 10, order 11, order 12] := by
  have hcycles : (Run (flakyWriter 2 2 3 .terminates)
      [.event (order 10), .event (order 11), .event (order 12)] 0).cycles
        = [([order 10, order 11], 0), ([order 12], 3)] := by
    simp [Run, runLoop, recvBlocking, fillBatch, WithRetries, retryLoop, writeEvents,
      renderEvents, targetTable, flakyWriter, order, DMLEvent.AsSQLString, DMLEvent.Database,
      DMLEvent.Table, DMLEvent.BinlogPosition]
  refine ⟨fun c hc => ?_, ?_, rfl, ?_⟩
  · rw [hcycles] at hc
    simp only [List.mem_cons, List.mem_singleton, List.not_mem_nil, or_false] at hc
    rcases hc with hc | hc <;> subst hc <;> rfl
  · simp [Run, runLoop, recvBlocking, fillBatch, WithRetries, retryLoop, writeEvents,
      renderEvents, targetTable, flakyWriter, order, DMLEvent.AsSQLString, DMLEvent.Database,
      DMLEvent.Table, DMLEvent.BinlogPosition]
  · simp [Run, runLoop, recvBlocking, fillBatch, WithRetries, retryLoop, writeEvents,
      renderEvents, targetTable, flakyWriter, order, DMLEvent.AsSQLString, DMLEvent.Database,
      DMLEvent.Table, DMLEvent.BinlogPosition, submitted, Effect.batch?]

/-- A `nil` handed to `BufferBinlogEvents` ahead of an event, batch size 10:
`Run` takes the `nil` it receives for the closed channel and ends, with the
event enqueued behind it neither submitted nor written. -/
theorem Run_ends_at_nil_event :
    queued [QueueObs.nilEvent, .event (order 10)] = [order 10] ∧
    (Run (steadyWriter 10 3) [.nilEvent, .event (order 10)] ()).status = .finished ∧
    (Run (steadyWriter 10 3) [.nilEvent, .event (order 10)] ()).trace = [] ∧
    (Run (steadyWriter 10 3) [.nilEvent, .event (order 10)] ()).batches = [] := by
  refine ⟨rfl, ?_, ?_, ?_⟩ <;>
    simp [Run, runLoop, recvBlocking, RunResult.batches]

/-- C2 (as amended): every batch that `Run` passes to `writeEvents` holds at
most `max BatchSize 1` events, whatever the channel delivers and however the
writes go; so at most `BatchSize` events whenever `BatchSize` is at least 1. -/
theorem Run_batch_bound (b : BinlogWriter D) (sched : List (QueueObs E)) (d : D) :
    ∀ batch ∈ submitted (Run b sched d).trace,
      batch.length ≤ max b.BatchSize 1 ∧ (1 ≤ b.BatchSize → batch.length ≤ b.BatchSize) := by
  intro batch hbatch
  have h := ((runLoop_batches b sched d).2 batch hbatch).2
  exact ⟨h, fun h1 => by rwa [max_eq_left h1] at h⟩

/-- Three events ready on the channel, batch size 2: the first batch holds the
first two events, within the bound. -/
theorem Run_batch_bound_witness :
    [order 10, order 11] ∈ submitted (Run (steadyWriter 2 3)
      [.event (order 10), .event (order 11), .event (order 12)] ()).trace ∧
    [order 10, order 11].length ≤ max (steadyWriter 2 3).BatchSize 1 ∧
    (1 ≤ (steadyWriter 2 3).BatchSize →
      [order 10, order 11].length ≤ (steadyWriter 2 3).BatchSize) :=
  have hmem : [order 10, order 11] ∈ submitted (Run (steadyWriter 2 3)
      [.event (order 10), .event (order 11), .event (order 12)] ()).trace := by
    simp [Run, runLoop, recvBlocking, fillBatch, WithRetries, retryLoop, writeEvents,
      renderEvents, targetTable, steadyWriter, order, DMLEvent.AsSQLString, DMLEvent.Database,
      DMLEvent.Table, DMLEvent.BinlogPosition, submitted, Effect.batch?]
  ⟨hmem, Run_batch_bound (steadyWriter 2 3)
    [.event (order 10), .event (order 11), .event (order 12)] () [order 10, order 11] hmem⟩

/-- C2 as stated fails for `BatchSize = 0`: the event of the blocking receive
is written as a batch of one event. -/
theorem Run_batch_bound_fails_at_zero :
    ∃ batch ∈ submitted (Run (steadyWriter 0 1) [.event (order 10)] ()).trace,
      (steadyWriter 0 1).BatchSize < batch.length := by
  refine ⟨[order 10], ?_, by decide⟩
  simp [Run, runLoop, recvBlocking, fillBatch, WithRetries, retryLoop, writeEvents,
    renderEvents, targetTable, steadyWriter, order, DMLEvent.AsSQLString, DMLEvent.Database,
    DMLEvent.Table, DMLEvent.BinlogPosition, submitted, Effect.batch?]

/-- C10: every batch that `Run` passes to `writeEvents` is non-empty, so
`writeEvents` returns on it in every database state (the read of
`events[len(events)-1]` is in range), and no panic unwinds `Run`. -/
theorem Run_batches_nonempty (b : BinlogWriter D) (sched : List (QueueObs E)) (d : D) :
    (∀ batch ∈ submitted (Run b sched d).trace,
      batch ≠ [] ∧ ∀ d1, ∃ err, (writeEvents b batch d1).result = .returned err) ∧
    ∀ msg, (Run b sched d).status ≠ .panicked msg := by
  refine ⟨fun batch hbatch => ?_, (runLoop_batches b sched d).1⟩
  have hne := ((runLoop_batches b sched d).2 batch hbatch).1
  exact ⟨hne, fun d1 => (writeEvents_positions b batch d1 hne).1⟩

/-- A target that fails twice, batch size 2, three events: every submitted
batch is non-empty and the run ends at the closed channel. -/
theorem Run_batches_nonempty_witness :
    (∀ batch ∈ submitted (Run (flakyWriter 2 2 3 .terminates)
        [.event (order 10), .event (order 11), .event (order 12)] 0).trace,
      batch ≠ [] ∧
        ∀ d1, ∃ err, (writeEvents (flakyWriter 2 2 3 .terminates) batch d1).result
          = .returned err) ∧
    (Run (flakyWriter 2 2 3 .terminates)
      [.event (order 10), .event (order 11), .event (order 12)] 0).status = .finished :=
  ⟨(Run_batches_nonempty (flakyWriter 2 2 3 .terminates)
      [.event (order 10), .event (order 11), .event (order 12)] 0).1, by
    simp [Run, runLoop, recvBlocking, fillBatch, WithRetries, retryLoop, writeEvents,
      renderEvents, targetTable, flakyWriter, order, DMLEvent.AsSQLString, DMLEvent.Database,
      DMLEvent.Table, DMLEvent.BinlogPosition]⟩

/-- C4 (as amended): when the positions of the enqueued events do not decrease
in the order of enqueueing, the positions passed to
`UpdateLastWrittenBinlogPosition` do not decrease, whatever the pattern of
write successes and failures. -/
theorem Run_checkpoint_monotone [Preorder P] (b : BinlogWriter D)
    (sched : List (QueueObs E)) (d : D)
    (hsorted : List.Pairwise (fun p q : P => p ≤ q)
      ((queued sched).map DMLEvent.BinlogPosition)) :
    List.Pairwise (fun p q : P => p ≤ q) (positions (Run b sched d).trace) :=
  List.Pairwise.sublist (runLoop_positions b sched d) hsorted

/-- Three events at positions 10, 11, 12 on a target that fails twice: the
recorded positions do not decrease. -/
theorem Run_checkpoint_monotone_witness :
    List.Pairwise (fun p q : Nat => p ≤ q)
      (positions (Run (flakyWriter 2 2 3 .terminates)
        [.event (order 10), .event (order 11), .event (order 12)] 0).trace) :=
  Run_checkpoint_monotone (flakyWriter 2 2 3 .terminates)
    [.event (order 10), .event (order 11), .event (order 12)] 0 (by decide)

/-- C4 as stated fails: events enqueued at positions 5 and then 3 are
recorded as 5 and then 3. -/
theorem Run_checkpoint_regresses :
    positions (Run (steadyWriter 1 1) [.event (order 5), .event (order 3)] ()).trace = [5, 3] ∧
    ¬ List.Pairwise (fun p q : Nat => p ≤ q)
      (positions (Run (steadyWriter 1 1) [.event (order 5), .event (order 3)] ()).trace) := by
  have h : positions (Run (steadyWriter 1 1) [.event (order 5), .event (order 3)] ()).trace
      = [5, 3] := by
    simp [Run, runLoop, recvBlocking, fillBatch, WithRetries, retryLoop, writeEvents,
      renderEvents, targetTable, steadyWriter, order, DMLEvent.AsSQLString, DMLEvent.Database,
      DMLEvent.Table, DMLEvent.BinlogPosition, positions, Effect.position?]
  refine ⟨h, ?_⟩
  rw [h]
  decide


/-- C9 (as amended): for every `BatchSize`, with `B = max BatchSize 1`, all `n`
events (no `nil` among them) ready on the channel before it is closed, and
every write step ending in success, the batches of the cycles of `Run` are the
consecutive chunks of the sequence: `n / B` rounded up batches, all of `B`
events but the last, which holds the remaining ones; each batch is written by
the write step of its own cycle, which records its last position, and the
last position recorded is that of the last event.  `DB.Exec` is called at
least once per batch, and once per batch when no attempt fails. -/
theorem Run_chunks (b : BinlogWriter D) (evs : List E) (d : D)
    (hOK : ∀ c ∈ (Run b (evs.map QueueObs.event) d).cycles,
      (WithRetries b.WriteRetries (writeEvents b c.1) c.2).result = .returned none) :
    (Run b (evs.map QueueObs.event) d).status = .finished ∧
    (Run b (evs.map QueueObs.event) d).batches.flatten = evs ∧
    (Run b (evs.map QueueObs.event) d).batches.length
      = (evs.length + max b.BatchSize 1 - 1) / max b.BatchSize 1 ∧
    (Run b (evs.map QueueObs.event) d).batches.map List.length
      = (if evs.length = 0 then []
         else List.replicate ((evs.length + max b.BatchSize 1 - 1) / max b.BatchSize 1 - 1)
             (max b.BatchSize 1)
           ++ [evs.length - max b.BatchSize 1
                 * ((evs.length + max b.BatchSize 1 - 1) / max b.BatchSize 1 - 1)]) ∧
    positions (Run b (evs.map QueueObs.event) d).trace
      = (Run b (evs.map QueueObs.event) d).batches.filterMap
          (fun batch => batch.getLast?.map DMLEvent.BinlogPosition) ∧
    (positions (Run b (evs.map QueueObs.event) d).trace).getLast?
      = evs.getLast?.map DMLEvent.BinlogPosition ∧
    (Run b (evs.map QueueObs.event) d).batches.length
      ≤ (execs (Run b (evs.map QueueObs.event) d).trace).length ∧
    (execs (Run b (evs.map QueueObs.event) d).trace).length
      ≤ (submitted (Run b (evs.map QueueObs.event) d).trace).length ∧
    ((∀ c ∈ (Run b (evs.map QueueObs.event) d).cycles,
        (writeEvents b c.1 c.2).result = .returned none) →
      submitted (Run b (evs.map QueueObs.event) d).trace
        = (Run b (evs.map QueueObs.event) d).batches ∧
      (execs (Run b (evs.map QueueObs.event) d).trace).length
        = (evs.length + max b.BatchSize 1 - 1) / max b.BatchSize 1) := by
  have hnil : QueueObs.nilEvent ∉ evs.map QueueObs.event := by simp
  have hs := runLoop_ok (P := P) b (evs.map QueueObs.event) hnil d hOK
  rw [queued_events] at hs
  have hz := runLoop_chunk_sizes (P := P) b evs d hOK
  have hB : 0 < max b.BatchSize 1 := by omega
  have hlen : (runLoop (P := P) b (evs.map QueueObs.event) d).batches.length
      = (evs.length + max b.BatchSize 1 - 1) / max b.BatchSize 1 := by
    rw [← chunkSizes_length (max b.BatchSize 1) evs.length hB, ← hz, List.length_map]
  have hlast := getLast_filterMap_flatten (DMLEvent.BinlogPosition (E := E)) _
    (runLoop_cycle_batches (P := P) b (evs.map QueueObs.event) d)
  rw [hs.2.1, ← hs.2.2.1] at hlast
  obtain ⟨h5, h6⟩ := runLoop_execs (P := P) b (evs.map QueueObs.event) d
  refine ⟨hs.1, hs.2.1, hlen, hz, hs.2.2.1, hlast, h6 hOK, h5, fun hA => ?_⟩
  have h7 := runLoop_first_attempts (P := P) b (evs.map QueueObs.event) d hA
  refine ⟨h7, ?_⟩
  have h8 : (execs (runLoop (P := P) b (evs.map QueueObs.event) d).trace).length
      ≤ (submitted (runLoop (P := P) b (evs.map QueueObs.event) d).trace).length := h5
  rw [h7] at h8
  have h9 := h6 hOK
  unfold Run
  omega

/-- The scenario of batch size 2 and 5 events enqueued before shutdown, on a
target that fails its first two calls (budget 3): three batches of sizes 2, 2,
1, and the final position is that of the fifth event. -/
theorem Run_chunks_witness :
    (Run (flakyWriter 2 2 3 .terminates)
      ([order 10, order 11, order 12, order 13, order 14].map QueueObs.event) 0).batches.map
        List.length = [2, 2, 1] ∧
    (positions (Run (flakyWriter 2 2 3 .terminates)
      ([order 10, order 11, order 12, order 13, order 14].map QueueObs.event) 0).trace).getLast?
        = some 14 :=
  have hcycles : (Run (flakyWriter 2 2 3 .terminates)
      ([order 10, order 11, order 12, order 13, order 14].map QueueObs.event) 0).cycles
        = [([order 10, order 11], 0), ([order 12, order 13], 3), ([order 14], 4)] := by
    simp [Run, runLoop, recvBlocking, fillBatch, WithRetries, retryLoop, writeEvents,
      renderEvents, targetTable, flakyWriter, order, DMLEvent.AsSQLString, DMLEvent.Database,
      DMLEvent.Table, DMLEvent.BinlogPosition]
  have h := Run_chunks (flakyWriter 2 2 3 .terminates)
    [order 10, order 11, order 12, order 13, order 14] 0
    (fun c hc => by
      rw [hcycles] at hc
      simp only [List.mem_cons, List.mem_singleton, List.not_mem_nil, or_false] at hc
      rcases hc with hc | hc | hc <;> subst hc <;> rfl)
  ⟨h.2.2.2.1, h.2.2.2.2.2.1⟩

/-- C9 as stated fails for `BatchSize = 0`: three events, every write
succeeding, are written as three batches of one event each. -/
theorem Run_chunks_fails_at_zero :
    (steadyWriter 0 1).BatchSize = 0 ∧
    (∀ c ∈ (Run (steadyWriter 0 1)
        ([order 10, order 11, order 12].map QueueObs.event) ()).cycles,
      (WithRetries (steadyWriter 0 1).WriteRetries
        (writeEvents (steadyWriter 0 1) c.1) c.2).result = .returned none) ∧
    submitted (Run (steadyWriter 0 1)
      ([order 10, order 11, order 12].map QueueObs.event) ()).trace
        = [[order 10], [order 11], [order 12]] ∧
    (Run (steadyWriter 0 1)
      ([order 10, order 11, order 12].map QueueObs.event) ()).batches.map List.length
        = [1, 1, 1] := by
  have hcycles : (Run (steadyWriter 0 1)
      ([order 10, order 11, order 12].map QueueObs.event) ()).cycles
        = [([order 10], ()), ([order 11], ()), ([order 12], ())] := by
    simp [Run, runLoop, recvBlocking, fillBatch, WithRetries, retryLoop, writeEvents,
      renderEvents, targetTable, steadyWriter, order, DMLEvent.AsSQLString, DMLEvent.Database,
      DMLEvent.Table, DMLEvent.BinlogPosition]
  refine ⟨rfl, fun c hc => ?_, ?_, ?_⟩
  · rw [hcycles] at hc
    simp only [List.mem_cons, List.mem_singleton, List.not_mem_nil, or_false] at hc
    rcases hc with hc | hc | hc <;> subst hc <;> rfl
  · simp [Run, runLoop, recvBlocking, fillBatch, WithRetries, retryLoop, writeEvents,
      renderEvents, targetTable, steadyWriter, order, DMLEvent.AsSQLString, DMLEvent.Database,
      DMLEvent.Table, DMLEvent.BinlogPosition, submitted, Effect.batch?]
  · rw [RunResult.batches, hcycles]
    rfl

/-- C7 (as amended): in every cycle of `Run`, a write step that fails on every
attempt of the budget is reported to `ErrorHandler.Fatal`, right after its
last attempt: the cycles take their batches off the queue in order, and the
calls of a run are, cycle by cycle, those of the write step followed by the
call of `Fatal` when it failed.  `Run` has no return after
that call: when `Fatal` does not hand control back, the cycle is the last one
and the call of `Fatal` the last thing `Run` does, so that no further batch is
submitted, whatever is left on the channel. -/
theorem Run_fatal_stops (b : BinlogWriter D) (sched : List (QueueObs E)) (d : D) :
    (∀ firstEvent rest, recvBlocking sched = (some firstEvent, rest) →
      ∃ tail, (Run b sched d).cycles
        = ((fillBatch b.BatchSize [firstEvent] rest).1, d) :: tail) ∧
    (∃ later, (Run b sched d).batches.flatten ++ later = queued sched) ∧
    (Run b sched d).trace
      = ((Run b sched d).cycles.map (fun c =>
          (WithRetries b.WriteRetries (writeEvents b c.1) c.2).trace ++
            match (WithRetries b.WriteRetries (writeEvents b c.1) c.2).result with
            | .returned (some err) => [Effect.fatal "binlog_writer" err]
            | _ => [])).flatten ∧
    (∀ pre c post err, (Run b sched d).cycles = pre ++ c :: post →
      (WithRetries b.WriteRetries (writeEvents b c.1) c.2).result = .returned (some err) →
      b.Fatal "binlog_writer" err = .terminates →
      post = [] ∧ (Run b sched d).status = .fatalStop ∧
      (Run b sched d).trace
        = (pre.map (fun c =>
            (WithRetries b.WriteRetries (writeEvents b c.1) c.2).trace ++
              match (WithRetries b.WriteRetries (writeEvents b c.1) c.2).result with
              | .returned (some err) => [Effect.fatal "binlog_writer" err]
              | _ => [])).flatten
          ++ (WithRetries b.WriteRetries (writeEvents b c.1) c.2).trace
          ++ [Effect.fatal "binlog_writer" err]) := by
  refine ⟨fun firstEvent rest h => runLoop_cycles_head b sched rest d firstEvent h,
    runLoop_batches_queue b sched d,
    runLoop_trace_cycles b sched d, fun pre c post err hc hres hfatal => ?_⟩
  obtain ⟨hpost, hstatus⟩ := runLoop_fatal_cycle b sched d pre c post err hc hres hfatal
  refine ⟨hpost, hstatus, ?_⟩
  have htr := runLoop_trace_cycles (P := P) b sched d
  have hc2 : (runLoop (P := P) b sched d).cycles = pre ++ [c] := by
    have : (runLoop (P := P) b sched d).cycles = pre ++ c :: post := hc
    rw [this, hpost]
  unfold Run
  rw [htr, hc2]
  simp only [List.map_append, List.map_cons, List.map_nil, List.flatten_append,
    List.flatten_cons, List.flatten_nil, List.append_nil, hres, List.append_assoc]

/-- Batch size 1, a budget of 2, a target that executes one call and fails the
later ones: the first batch is written; the second is attempted twice, `Fatal`
is called and does not return; the third event, still on the channel, is never
submitted. -/
theorem Run_fatal_stops_witness :
    (Run (wornWriter 1 1 2 .terminates)
      [.event (order 10), .event (order 11), .event (order 12)] 0).status = .fatalStop ∧
    (Run (wornWriter 1 1 2 .terminates)
      [.event (order 10), .event (order 11), .event (order 12)] 0).trace
      = [.writeEvents [order 10], .waitForThrottle,
         .asSQLString (order 10) { Schema := "dst", Name := "orders" },
         .exec "BEGIN;\nINSERT INTO dst.orders;\nCOMMIT",
         .updateLastWrittenBinlogPosition 10,
         .writeEvents [order 11], .waitForThrottle,
         .asSQLString (order 11) { Schema := "dst", Name := "orders" },
         .exec "BEGIN;\nINSERT INTO dst.orders;\nCOMMIT",
         .writeEvents [order 11], .waitForThrottle,
         .asSQLString (order 11) { Schema := "dst", Name := "orders" },
         .exec "BEGIN;\nINSERT INTO dst.orders;\nCOMMIT",
         .fatal "binlog_writer" "exec query (37 bytes): connection lost"] :=
  have hcycles : (Run (wornWriter 1 1 2 .terminates)
      [.event (order 10), .event (order 11), .event (order 12)] 0).cycles
        = [([order 10], 0)] ++ ([order 11], 1) :: [] := by
    simp [Run, runLoop, recvBlocking, fillBatch, WithRetries, retryLoop, writeEvents,
      renderEvents, targetTable, wornWriter, order, DMLEvent.AsSQLString, DMLEvent.Database,
      DMLEvent.Table, DMLEvent.BinlogPosition]
  have h := (Run_fatal_stops (wornWriter 1 1 2 .terminates)
    [.event (order 10), .event (order 11), .event (order 12)] 0).2.2.2
      [([order 10], 0)] ([order 11], 1) [] "exec query (37 bytes): connection lost"
      hcycles (by decide) rfl
  ⟨h.2.1, h.2.2.trans (by decide)⟩

/-- C7 as stated fails: `Run` has no return after the call of `Fatal`; with a
`Fatal` that returns, the failed batch is dropped and the next batch is
submitted and written. -/
theorem Run_continues_after_fatal :
    (WithRetries (flakyWriter 1 1 1 .returns).WriteRetries
      (writeEvents (flakyWriter 1 1 1 .returns) [order 10]) 0).result
        = .returned (some "exec query (37 bytes): connection lost") ∧
    (Run (flakyWriter 1 1 1 .returns) [.event (order 10), .event (order 11)] 0).trace
      = [.writeEvents [order 10], .waitForThrottle,
         .asSQLString (order 10) { Schema := "dst", Name := "orders" },
         .exec "BEGIN;\nINSERT INTO dst.orders;\nCOMMIT",
         .fatal "binlog_writer" "exec query (37 bytes): connection lost",
         .writeEvents [order 11], .waitForThrottle,
         .asSQLString (order 11) { Schema := "dst", Name := "orders" },
         .exec "BEGIN;\nINSERT INTO dst.orders;\nCOMMIT",
         .updateLastWrittenBinlogPosition 11] := by
  refine ⟨by decide, ?_⟩
  simp [Run, runLoop, recvBlocking, fillBatch, WithRetries, retryLoop, writeEvents,
    renderEvents, targetTable, flakyWriter, order, DMLEvent.AsSQLString, DMLEvent.Database,
    DMLEvent.Table, DMLEvent.BinlogPosition]
  decide

end Lemmas

end ghostferry
